import Mathlib

/-!
VTIL-SymEx: symbolic expression substrate.

A shallow embedding of `src/expressions/expression.cpp`: the expression node with its
cached hash, depth, complexity and value, the invariant pass `update`, the width
propagator `resize`, the structural comparator `equals` and the read traversals.

Machine words are natural numbers reduced modulo `2 ^ 64` where the source can wrap.
Collaborators that live outside the source file (operator registry, value abstraction,
rewrite engine) are collected in the structure `externals`.
-/

namespace vtil

/-! ## Data model -/

/-- Operator tags. The enumeration names every tag that `expression.cpp` mentions;
`other` stands for any further tag of the registry that the file does not name. -/
inductive operator_id where
  | invalid
  | bitwise_not | bitwise_and | bitwise_or | bitwise_xor
  | umultiply_high | umultiply | udivide | uremainder | umax_value | umin_value
  | multiply_high | multiply | divide | remainder | add | negate | substract
  | max_value | min_value
  | ucast | cast
  | value_if
  | bit_test | greater | greater_eq | equal | not_equal | less_eq | less
  | ugreater | ugreater_eq | uless_eq | uless
  | other (tag : Nat)
  deriving DecidableEq, Repr

/-- Operator descriptor, as read by the source through `get_op_desc()`:
`operand_count`, `is_commutative` and `hint_bitwise`. -/
structure operator_desc where
  operand_count : Nat
  is_commutative : Bool
  hint_bitwise : Int
  deriving DecidableEq, Repr

/-- Identifier of a free variable: the source reads `uid.hash`, `uid.ptr` and compares
identifiers with `==`. -/
structure unique_identifier where
  ptr : String
  hash : Nat
  deriving DecidableEq, Repr

/-- The value abstraction: a fixed-width integer with three-valued bits, seen through the
accessors the source calls (`known_one()`, `known_zero()`, `size()`). -/
structure bit_vector where
  known_one : Nat
  known_zero : Nat
  bit_count : Nat
  deriving DecidableEq, Repr

/-- The scalar members of an `expression` object. -/
structure node_state where
  op : operator_id
  uid : Option unique_identifier
  value : bit_vector
  depth : Nat
  complexity : ℚ
  hash : Nat
  simplify_hint : Bool
  deriving DecidableEq

/-- An expression reference: `null` is the empty reference, `node` an object with its
scalar members and its two child references `lhs` and `rhs`. -/
inductive expression where
  | null : expression
  | node (s : node_state) (lhs rhs : expression) : expression
  deriving DecidableEq

/-- The collaborators that are declared outside `expression.cpp`. -/
structure externals where
  /-- The operator registry behind `get_op_desc()`. -/
  get_op_desc : operator_id → operator_desc
  /-- The object representation (bytes) of an operator tag, as `fnv_append` reads it. -/
  operator_bytes : operator_id → List Nat
  /-- The value abstraction's `resize(width, signed)`. The source calls it both as
  `value = value.resize( .. )` and as the plain statement `value.resize( .. )`: it changes
  the receiver and returns it, so either form stores the resized value. -/
  value_resize : bit_vector → Nat → Bool → bit_vector
  /-- The value abstraction's `math::evaluate_partial(op, lhs, rhs)`; a unary node passes
  the value-initialised vector `{}` as `lhs`. -/
  evaluate_partial : operator_id → bit_vector → bit_vector → bit_vector
  /-- The rewrite engine's entry point `simplify_expression(ref, prettify)`. -/
  simplify_expression : expression → Bool → expression
  /-- The square root applied to the constant score; complexities below the overflow
  bound of the double are kept as exact rationals. -/
  sqrt : Nat → ℚ
  /-- Identity of two set shared references (`lhs == other.lhs`): whether both denote the
  same node. -/
  same_reference : expression → expression → Bool

/-! ## Accessors -/

/-- Width of a value: `value.size()`. -/
def bit_vector.size (v : bit_vector) : Nat := v.bit_count

/-- Modelled from the spec: the value abstraction's `is_known()` is declared outside the
source file; a value is fully known when every bit below its width is a known one or a
known zero ("three-valued knowledge, fully-known for constants"). -/
def bit_vector.is_known (v : bit_vector) : Bool :=
  v.bit_count != 0 && (v.known_one ||| v.known_zero) % 2 ^ v.bit_count == 2 ^ v.bit_count - 1

/-- Modelled from the spec: the value abstraction's `get()` is declared outside the source
file; it yields the unsigned value of a fully known vector and nothing otherwise. -/
def bit_vector.get (v : bit_vector) : Option Nat :=
  if v.is_known then some (v.known_one % 2 ^ v.bit_count) else none

/-- Modelled from the spec: `get<true>()`, the fully known value sign-extended to 64 bits
(the spec's "sign-extended 64-bit value"). -/
def bit_vector.get_signed (v : bit_vector) : Option Int :=
  if v.is_known then
    let u := v.known_one % 2 ^ v.bit_count
    some (if u < 2 ^ (v.bit_count - 1) then (u : Int) else (u : Int) - 2 ^ v.bit_count)
  else none

/-- The value-initialised vector `{}` handed to `evaluate_partial` by unary nodes. -/
def bit_vector.empty : bit_vector := ⟨0, 0, 0⟩

/-- Modelled from the spec: a constant of the given width ("a fixed-width value with fully
known bits"); the constructor of the value abstraction is outside the source file. -/
def bit_vector.constant (value width : Nat) : bit_vector :=
  ⟨value % 2 ^ width, (2 ^ width - 1) - value % 2 ^ width, width⟩

/-- The member `is_variable()`: the node carries an identifier. -/
def node_state.is_variable (s : node_state) : Bool := s.uid.isSome

/-- The member `is_expression()`: the node carries an operator. -/
def node_state.is_expression (s : node_state) : Bool := s.op != operator_id.invalid

/-- Modelled from the spec: `is_constant()` is declared outside the source file; the node
is the constant variant of the tagged union, "a fixed-width value with fully known bits",
and an operator node whose value happens to be fully known is not a constant. -/
def node_state.is_constant (s : node_state) : Bool :=
  !s.is_expression && !s.is_variable && s.value.is_known

/-- The member `size()`: width of the cached value; the empty reference has none. -/
def expression.size : expression → Nat
  | .null => 0
  | .node s _ _ => s.value.size

/-- The cached value of a node. -/
def expression.value : expression → bit_vector
  | .null => bit_vector.empty
  | .node s _ _ => s.value

/-- The cached hash of a node. -/
def expression.hash : expression → Nat
  | .null => 0
  | .node s _ _ => s.hash

/-- The cached depth of a node. -/
def expression.depth : expression → Nat
  | .null => 0
  | .node s _ _ => s.depth

/-- The cached complexity of a node. -/
def expression.complexity : expression → ℚ
  | .null => 0
  | .node s _ _ => s.complexity

/-- The child reference `lhs`. -/
def expression.lhs : expression → expression
  | .null => .null
  | .node _ l _ => l

/-- The child reference `rhs`. -/
def expression.rhs : expression → expression
  | .null => .null
  | .node _ _ r => r

/-- The value `rhs->get().value()` of a cast node's second child: nothing when the
reference is empty or the child's value is not fully known. -/
def expression.rhs_width : expression → Option Nat
  | .null => none
  | .node s _ _ => s.value.get

/-- Whether the reference is set (`if ( lhs )`). -/
def expression.is_set : expression → Bool
  | .null => false
  | .node _ _ _ => true

/-! ## FNV hashing -/

/-- The seed `fnv_initial`. -/
def fnv_initial : Nat := 0xcbf29ce484222325

/-- One round of `fnv_append`: `( byte ^ *hash ) * 0x100000001B3` in 64-bit arithmetic. -/
def fnv_round (hash byte : Nat) : Nat := ((byte ^^^ hash) * 0x100000001B3) % 2 ^ 64

/-- The object representation of an unsigned integer of `n` bytes, low byte first. -/
def object_bytes (n v : Nat) : List Nat := (List.range n).map fun i => (v / 256 ^ i) % 256

/-- The template `fnv_append`, applied to the bytes of the appended object in order. -/
def fnv_append (hash : Nat) (bytes : List Nat) : Nat := bytes.foldl fnv_round hash

/-! ## Read traversals -/

/-- The member `count_constants`. -/
def expression.count_constants : expression → Nat
  | .null => 0
  | .node s lhs rhs =>
    if s.is_constant then 1 else lhs.count_constants + rhs.count_constants

/-- The member `count_variables`. -/
def expression.count_variables : expression → Nat
  | .null => 0
  | .node s lhs rhs =>
    if s.is_variable then 1 else lhs.count_variables + rhs.count_variables

/-- The traversal behind `count_unique_variables` once `visited` points at a set: the set
is only queried with `find`, so it is passed down unchanged. The test `is_variable()` is
the presence of `uid`, which the variable branch then looks up. -/
def expression.count_unique_variables_in (visited : List unique_identifier) :
    expression → Nat
  | .null => 0
  | .node s lhs rhs =>
    match s.uid with
    | some uid => if uid ∈ visited then 0 else 1
    | none => lhs.count_unique_variables_in visited + rhs.count_unique_variables_in visited

/-- The member `count_unique_variables( visited )`; `none` is the null pointer, for which
the local empty set `tmp` is used. -/
def expression.count_unique_variables (e : expression)
    (visited : Option (List unique_identifier)) : Nat :=
  match visited with
  | none => e.count_unique_variables_in []
  | some set => e.count_unique_variables_in set

/-! ## Structural comparator -/

/-- Comparison of two child references (`lhs == other.lhs`): two empty references are
equal, an empty and a set reference are not, and two set references are equal when they
denote the same shared node. -/
def reference_eq (ext : externals) : expression → expression → Bool
  | .null, .null => true
  | .null, .node _ _ _ => false
  | .node _ _ _, .null => false
  | a, b => ext.same_reference a b

/-- The member `equals`. Dereferencing an empty reference has no defined result in the
source; the comparison of such a pair is taken to fail. -/
def expression.equals (ext : externals) : expression → expression → Bool
  | .null, _ => false
  | .node s lhs rhs, other =>
    match other with
    | .null => false
    | .node os olhs orhs =>
      if s.hash ≠ os.hash then false
      else if s.op ≠ os.op ∨ s.value.size ≠ os.value.size then false
      else if s.is_variable then os.is_variable && s.uid == os.uid
      else if s.is_constant then os.is_constant && s.value == os.value
      else if (ext.get_op_desc s.op).operand_count = 1 then
        reference_eq ext rhs orhs || rhs.equals ext orhs
      else if (reference_eq ext lhs olhs || lhs.equals ext olhs) &&
          (reference_eq ext rhs orhs || rhs.equals ext orhs) then true
      else
        (ext.get_op_desc s.op).is_commutative &&
        (reference_eq ext lhs orhs || lhs.equals ext orhs) &&
        (reference_eq ext rhs olhs || rhs.equals ext olhs)

/-! ## Invariant pass -/

/-- Population count of a 64-bit word given as a (signed) integer: `math::popcnt`. -/
def popcnt (x : Int) : Nat :=
  ((List.range 64).filter fun i => (x % 2 ^ 64).toNat.testBit i).length

/-- Modelled from the spec: `math::sgn` is declared outside the source file. The spec's
penalty applies exactly when the product of the two class hints is negative ("combine by
sign of their product"), so `sgn` yields the sign bit of its argument. -/
def sgn (x : Int) : Int := if x < 0 then 1 else 0

/-- The integer under the square root of a constant's complexity:
`1 + std::min( math::popcnt( cval ), math::popcnt( abs( cval ) ) )`. -/
def constant_score (cval : Int) : Nat := 1 + min (popcnt cval) (popcnt |cval|)

/-- Hash of a constant leaf: the seed incremented by the known-one mask, then the width
(one byte, the `uint8_t` that `resize` takes) and the known-zero mask (eight bytes). -/
def constant_hash (v : bit_vector) : Nat :=
  fnv_append (fnv_append ((fnv_initial + v.known_one) % 2 ^ 64) (object_bytes 1 v.size))
    (object_bytes 8 v.known_zero)

/-- Hash of a variable leaf: `uid.hash + value.size()`. -/
def variable_hash (uid : unique_identifier) (v : bit_vector) : Nat :=
  (uid.hash + v.size) % 2 ^ 64

/-- Hash of a unary node before the operator and depth are appended. -/
def unary_hash (rhs_hash : Nat) : Nat := fnv_append fnv_initial (object_bytes 8 rhs_hash)

/-- Hash of a binary node before the operator and depth are appended: order-independent
for a commutative operator, `lhs` then `rhs` otherwise. -/
def binary_hash (is_commutative : Bool) (lhs_hash rhs_hash : Nat) : Nat :=
  if is_commutative then
    fnv_append (fnv_append fnv_initial (object_bytes 8 (max lhs_hash rhs_hash)))
      (object_bytes 8 (rhs_hash ^^^ lhs_hash))
  else
    fnv_append (fnv_append fnv_initial (object_bytes 8 lhs_hash)) (object_bytes 8 rhs_hash)

/-- The two appends that close the hash of an operator node: operator, then depth. -/
def close_hash (ext : externals) (hash : Nat) (op : operator_id) (depth : Nat) : Nat :=
  fnv_append (fnv_append hash (ext.operator_bytes op)) (object_bytes 8 depth)

/-- The bound at which a result of double arithmetic overflows: `2 ^ 1024`. -/
def double_overflow : ℚ := ((2 ^ 1024 : Nat) : ℚ)

/-- The result of an arithmetic operation on the double that holds the complexity: a value
at or beyond the overflow bound becomes `+inf`, which is represented by the bound itself
and stays there under further sums and products; below the bound, values are kept as
exact rationals. The rounding of a finite sum is not represented; the products of the
score are products by 1 or 2, which a double holds exactly below the bound. -/
def saturate (x : ℚ) : ℚ := if double_overflow ≤ x then double_overflow else x

/-- The base score of a unary node: `rhs->complexity * 2`. -/
def unary_score (rhs_complexity : ℚ) : ℚ := saturate (rhs_complexity * 2)

/-- The base score of a binary node: `( lhs->complexity + rhs->complexity ) * 2`. -/
def binary_score (lhs_complexity rhs_complexity : ℚ) : ℚ :=
  saturate (saturate (lhs_complexity + rhs_complexity) * 2)

/-- One step of the loop "Punish for mixing bitwise and arithmetic operators". -/
def mismatch_scale (ext : externals) (op : operator_id) (complexity : ℚ) :
    expression → ℚ
  | .null => complexity
  | .node os _ _ =>
    if os.is_expression then
      saturate (complexity *
        (1 + sgn ((ext.get_op_desc os.op).hint_bitwise * (ext.get_op_desc op).hint_bitwise)))
    else complexity

/-- The switch "Handle size mismatches" of `update`: `some false` for the labels whose
children are resized unsigned, `some true` for those resized signed, `none` for the
default label. -/
def size_mismatch_group : operator_id → Option Bool
  | .bitwise_and | .bitwise_or | .bitwise_xor | .umultiply_high | .umultiply | .udivide
  | .uremainder | .umax_value | .umin_value => some false
  | .multiply_high | .multiply | .divide | .remainder | .add | .substract | .max_value
  | .min_value => some true
  | _ => none

/-- The member `simplify`: the rewrite engine is handed the node, its result is copied
back and the hint is set. -/
def expression.simplify (ext : externals) (e : expression) (prettify : Bool) :
    Option expression :=
  match ext.simplify_expression e prettify with
  | .null => none
  | .node s lhs rhs => some (.node { s with simplify_hint := true } lhs rhs)

/-- The tail of `update` shared by unary and binary nodes: close the hash, scale the
complexity for each operand, reset the hint, and simplify on request. -/
def update_close (ext : externals) (s : node_state) (lhs rhs : expression) (value : bit_vector)
    (depth : Nat) (complexity : ℚ) (hash : Nat) (auto_simplify : Bool) : Option expression :=
  let result := expression.node
    { s with
      value := value
      depth := depth
      complexity := mismatch_scale ext s.op (mismatch_scale ext s.op complexity lhs) rhs
      hash := close_hash ext hash s.op depth
      simplify_hint := false } lhs rhs
  if auto_simplify then result.simplify ext false else some result

/-- A child after the size-mismatch switch: resized when its width differs. -/
def reconcile (resize : expression → Nat → Bool → Option expression) (child : expression)
    (width : Nat) (signed_cast : Bool) : Option expression :=
  if child.size ≠ width then resize child width signed_cast else some child

/-- The value of a binary node: for `ucast` and `cast` the left value resized to the width
held by the right child (`rhs->get<uint8_t>().value()`), otherwise the partial evaluation
of the operator over both child values. -/
def binary_value (ext : externals) (op : operator_id) (lhs_value rhs_value : bit_vector) :
    Option bit_vector :=
  if op = .ucast ∨ op = .cast then
    match rhs_value.get with
    | none => none
    | some width => some (ext.value_resize lhs_value (width % 256) (op == .cast))
  else some (ext.evaluate_partial op lhs_value rhs_value)

/-- The switch "Handle size mismatches" applied to both children. -/
def reconcile_children (resize : expression → Nat → Bool → Option expression)
    (op : operator_id) (lhs rhs : expression) (width : Nat) :
    Option (expression × expression) :=
  match size_mismatch_group op with
  | some signed_cast =>
    match reconcile resize lhs width signed_cast, reconcile resize rhs width signed_cast with
    | some lhs1, some rhs1 => some (lhs1, rhs1)
    | _, _ => none
  | none => some (lhs, rhs)

/-- The leaf branch of `update`: constants and variables. -/
def update_leaf (ext : externals) (s : node_state) (lhs rhs : expression) :
    Option expression :=
  if s.is_constant then
    match s.value.get_signed with
    | none => none
    | some cval =>
      some (.node { s with
        depth := 0
        complexity := ext.sqrt (constant_score cval)
        hash := constant_hash s.value
        simplify_hint := true } lhs rhs)
  else
    match s.uid with
    | none => none
    | some uid =>
      some (.node { s with
        depth := 0
        complexity := 128
        hash := variable_hash uid s.value
        simplify_hint := true } lhs rhs)

/-- The unary branch of `update`. -/
def update_unary (ext : externals) (s : node_state) (lhs rhs : expression)
    (auto_simplify : Bool) : Option expression :=
  match rhs with
  | .null => none
  | .node rs _ _ =>
    if unary_score rs.complexity = 0 then none
    else
      update_close ext s lhs rhs (ext.evaluate_partial s.op bit_vector.empty rs.value)
        (rs.depth + 1) (unary_score rs.complexity) (unary_hash rs.hash) auto_simplify

/-- The binary branch of `update`. -/
def update_binary (ext : externals) (resize : expression → Nat → Bool → Option expression)
    (s : node_state) (lhs rhs : expression) (auto_simplify : Bool) : Option expression :=
  match lhs, rhs with
  | .node ls _ _, .node rs _ _ =>
    match binary_value ext s.op ls.value rs.value with
    | none => none
    | some value =>
      match reconcile_children resize s.op lhs rhs value.size with
      | none => none
      | some (lhs1, rhs1) =>
        if binary_score lhs1.complexity rhs1.complexity = 0 then none
        else
          update_close ext s lhs1 rhs1 value (max lhs1.depth rhs1.depth + 1)
            (binary_score lhs1.complexity rhs1.complexity)
            (binary_hash (ext.get_op_desc s.op).is_commutative lhs1.hash rhs1.hash)
            auto_simplify
  | _, _ => none

/-- The member `update`, over the resize operation it applies to the children. A failed
assertion, a dereferenced empty reference or an empty optional yields `none`. -/
def update_with (ext : externals) (resize : expression → Nat → Bool → Option expression)
    (e : expression) (auto_simplify : Bool) : Option expression :=
  match e with
  | .null => none
  | .node s lhs rhs =>
    if !s.is_expression then update_leaf ext s lhs rhs
    else if (ext.get_op_desc s.op).operand_count = 1 then
      update_unary ext s lhs rhs auto_simplify
    else if (ext.get_op_desc s.op).operand_count = 2 then
      update_binary ext resize s lhs rhs auto_simplify
    else none

/-! ## Construction -/

/-- A freshly constructed object before its first `update`: cached fields are zero. -/
def fresh_state (op : operator_id) (uid : Option unique_identifier) (value : bit_vector) :
    node_state :=
  { op := op, uid := uid, value := value, depth := 0, complexity := 0, hash := 0,
    simplify_hint := false }

/-- Modelled from the spec: the constructor of a constant leaf is declared outside the
source file; "`update` is invoked immediately after construction". -/
def make_constant (ext : externals) (resize : expression → Nat → Bool → Option expression)
    (value width : Nat) : Option expression :=
  update_with ext resize
    (.node (fresh_state .invalid none (bit_vector.constant value width)) .null .null) false

/-- Modelled from the spec: the constructor of a variable leaf ("a unique identifier plus
a bit-width"), declared outside the source file, followed by `update`. -/
def make_variable (ext : externals) (resize : expression → Nat → Bool → Option expression)
    (uid : unique_identifier) (width : Nat) : Option expression :=
  update_with ext resize
    (.node (fresh_state .invalid (some uid) ⟨0, 0, width⟩) .null .null) false

/-- Modelled from the spec: the constructor of a binary operator node, "composing existing
shared references under an operator", declared outside the source file; "`update` is
invoked immediately after construction". -/
def make_binary (ext : externals) (resize : expression → Nat → Bool → Option expression)
    (lhs : expression) (op : operator_id) (rhs : expression) : Option expression :=
  update_with ext resize (.node (fresh_state op none bit_vector.empty) lhs rhs) false

/-- Modelled from the spec: the helpers `__cast` and `__ucast` are declared outside the
source file; they build the cast node whose "second child always holds a constant
encoding the target width", the constant being the byte-wide width handed to `resize`. -/
def make_cast (ext : externals) (resize : expression → Nat → Bool → Option expression)
    (signed_cast : Bool) (e : expression) (new_size : Nat) : Option expression :=
  match make_constant ext resize new_size 8 with
  | none => none
  | some width => make_binary ext resize e (if signed_cast then .cast else .ucast) width

/-- Modelled from the spec: `math::fill` is declared outside the source file; it is the
mask that keeps the low `n` bits ("mask the operand down to the old target width"). -/
def fill (n : Nat) : Nat := 2 ^ n - 1

/-! ## Width propagation -/

/-- The groups of case labels in the switch of `resize`. -/
inductive resize_group where
  | leaf | unsigned_class | signed_class | ucast | cast | value_if | boolean_class | unhandled
  deriving DecidableEq, Repr

/-- The case label group an operator falls under in `resize`. -/
def resize_group_of : operator_id → resize_group
  | .invalid => .leaf
  | .bitwise_and | .bitwise_or | .bitwise_xor | .bitwise_not | .umultiply | .udivide
  | .uremainder | .umax_value | .umin_value => .unsigned_class
  | .multiply | .divide | .remainder | .add | .negate | .substract | .max_value
  | .min_value => .signed_class
  | .ucast => .ucast
  | .cast => .cast
  | .value_if => .value_if
  | .bit_test | .greater | .greater_eq | .equal | .not_equal | .less_eq | .less | .ugreater
  | .ugreater_eq | .uless_eq | .uless => .boolean_class
  | _ => .unhandled

/-- The statement `*this = __cast( *this, new_size ).simplify()` (or `__ucast`). -/
def wrap_in_cast (ext : externals) (resize : expression → Nat → Bool → Option expression)
    (signed_cast : Bool) (e : expression) (new_size : Nat) : Option expression :=
  match make_cast ext resize signed_cast e new_size with
  | none => none
  | some cast => cast.simplify ext false

/-- The operand-wise branch of the unsigned and signed classes: resize `lhs` when it is
set and differs, `rhs` when it differs, then `update( true )`. -/
def resize_operands (ext : externals) (resize : expression → Nat → Bool → Option expression)
    (s : node_state) (lhs rhs : expression) (new_size : Nat) (signed_cast : Bool) :
    Option expression :=
  match (if lhs.is_set then reconcile resize lhs new_size signed_cast else some lhs), rhs with
  | some lhs1, .node rs rl rr =>
    match reconcile resize (.node rs rl rr) new_size signed_cast with
    | none => none
    | some rhs1 => update_with ext resize (.node s lhs1 rhs1) true
  | _, _ => none

/-- The shrink path of the two cast branches:
`__ucast( ( *this & expression{ math::fill( n ), lhs->size() } ).simplify(), new_size ).simplify()`
with `__cast` in the signed branch. -/
def resize_shrunk (ext : externals) (resize : expression → Nat → Bool → Option expression)
    (signed_cast : Bool) (e : expression) (old_width operand_size new_size : Nat) :
    Option expression :=
  match make_constant ext resize (fill old_width) operand_size with
  | none => none
  | some mask =>
    match make_binary ext resize e .bitwise_and mask with
    | none => none
    | some masked =>
      match masked.simplify ext false with
      | none => none
      | some simplified => wrap_in_cast ext resize signed_cast simplified new_size

/-- The statements `rhs = new_size; update( true );` of the cast branches. -/
def resize_bump (ext : externals) (resize : expression → Nat → Bool → Option expression)
    (s : node_state) (lhs : expression) (new_size : Nat) : Option expression :=
  match make_constant ext resize new_size 8 with
  | none => none
  | some width => update_with ext resize (.node s lhs width) true

/-- The member `resize( new_size, signed_cast )`. The first argument bounds the nesting of
calls between `resize` and `update`; an exhausted bound, a failed assertion or a
dereferenced empty reference yields `none`. -/
def resize (ext : externals) : Nat → expression → Nat → Bool → Option expression
  | _, .null, _, _ => none
  | 0, .node s lhs rhs, new_size, _ =>
    if s.value.size = new_size then some (.node s lhs rhs) else none
  | fuel + 1, .node s lhs rhs, new_size, signed_cast =>
    if s.value.size = new_size then some (.node s lhs rhs)
    else
      let signed_cast := if new_size = 1 then false else signed_cast
      match resize_group_of s.op with
      | .leaf =>
        if s.is_constant then
          update_with ext (resize ext fuel)
            (.node { s with value := ext.value_resize s.value new_size signed_cast } lhs rhs)
            false
        else wrap_in_cast ext (resize ext fuel) signed_cast (.node s lhs rhs) new_size
      | .unsigned_class =>
        if !signed_cast then resize_operands ext (resize ext fuel) s lhs rhs new_size false
        else wrap_in_cast ext (resize ext fuel) true (.node s lhs rhs) new_size
      | .signed_class =>
        if signed_cast then resize_operands ext (resize ext fuel) s lhs rhs new_size true
        else wrap_in_cast ext (resize ext fuel) false (.node s lhs rhs) new_size
      | .ucast =>
        match lhs, rhs.rhs_width with
        | .node ls ll lr, some width =>
          if ls.value.size > width then
            resize_shrunk ext (resize ext fuel) false (.node s lhs rhs) width ls.value.size
              new_size
          else if ls.value.size = new_size then some (.node ls ll lr)
          else resize_bump ext (resize ext fuel) s lhs new_size
        | _, _ => none
      | .cast =>
        match lhs, rhs.rhs_width with
        | .node ls ll lr, some width =>
          if ls.value.size > width then
            resize_shrunk ext (resize ext fuel) true (.node s lhs rhs) width ls.value.size
              new_size
          else if ls.value.size = new_size then some (.node ls ll lr)
          else if signed_cast then resize_bump ext (resize ext fuel) s lhs new_size
          else wrap_in_cast ext (resize ext fuel) false (.node s lhs rhs) new_size
        | _, _ => none
      | .value_if =>
        match rhs with
        | .null => none
        | .node rs rl rr =>
          match resize ext fuel (.node rs rl rr) new_size false with
          | none => none
          | some rhs1 => update_with ext (resize ext fuel) (.node s lhs rhs1) true
      | .boolean_class =>
        some (.node { s with
          hash := (((s.hash : Int) + ((new_size : Int) - (s.value.size : Int))) % 2 ^ 64).toNat
          value := ext.value_resize s.value new_size false } lhs rhs)
      | .unhandled =>
        wrap_in_cast ext (resize ext fuel) signed_cast (.node s lhs rhs) new_size

/-- The member `update( auto_simplify )`, with the bound handed to the resizes of the
children. -/
def update (ext : externals) (fuel : Nat) (e : expression) (auto_simplify : Bool) :
    Option expression :=
  update_with ext (resize ext fuel) e auto_simplify

/-! ## Properties of cached fields and contracts of the collaborators -/

/-- The cached hash and depth of a node are the ones `update` computes from the node's own
tag and its children's cached fields. -/
def node_updated (ext : externals) (s : node_state) (lhs rhs : expression) : Bool :=
  if !s.is_expression then
    s.depth == 0 &&
      (if s.is_constant then s.hash == constant_hash s.value
       else
        match s.uid with
        | some uid => s.hash == variable_hash uid s.value
        | none => false)
  else if (ext.get_op_desc s.op).operand_count = 1 then
    rhs.is_set && s.depth == rhs.depth + 1 &&
      s.hash == close_hash ext (unary_hash rhs.hash) s.op s.depth
  else if (ext.get_op_desc s.op).operand_count = 2 then
    lhs.is_set && rhs.is_set && s.depth == max lhs.depth rhs.depth + 1 &&
      s.hash ==
        close_hash ext (binary_hash (ext.get_op_desc s.op).is_commutative lhs.hash rhs.hash)
          s.op s.depth
  else false

/-- Every node of the tree carries the hash and depth produced by `update`. -/
def expression.updated (ext : externals) : expression → Bool
  | .null => true
  | .node s lhs rhs => node_updated ext s lhs rhs && lhs.updated ext && rhs.updated ext

/-- Structural equality up to the order of the operands of commutative binary operators:
same operator tag and width, equal identifiers, equal values for constants, children
pairwise structurally equal in the same order or, for a commutative binary operator, in
swapped order. -/
def expression.structurally_equal (ext : externals) : expression → expression → Bool
  | .null, .null => true
  | .null, .node _ _ _ => false
  | .node s lhs rhs, other =>
    match other with
    | .null => false
    | .node os olhs orhs =>
      s.op == os.op && s.value.size == os.value.size && s.uid == os.uid &&
      s.is_constant == os.is_constant && (!s.is_constant || s.value == os.value) &&
      ((lhs.structurally_equal ext olhs && rhs.structurally_equal ext orhs) ||
        ((ext.get_op_desc s.op).operand_count == 2 && (ext.get_op_desc s.op).is_commutative &&
          lhs.structurally_equal ext orhs && rhs.structurally_equal ext olhs))

/-- The operator tag `op` of a node; the empty reference has none. -/
def expression.op : expression → operator_id
  | .null => .invalid
  | .node s _ _ => s.op

/-- The two words that `update` appends for the children of a commutative node:
`std::max( lhs->hash, rhs->hash )` and `rhs->hash ^ lhs->hash`. -/
def commutative_words (lhs_hash rhs_hash : Nat) : Nat × Nat :=
  (max lhs_hash rhs_hash, rhs_hash ^^^ lhs_hash)

/-- Well-formed expressions: every node is exactly one variant of the tagged union. A leaf
is a variable or a constant and has no children; an operator node carries no identifier
and has exactly the children its arity requires, each of them well-formed. -/
def expression.well_formed (ext : externals) : expression → Bool
  | .null => false
  | .node s lhs rhs =>
    if !s.is_expression then (s.is_variable || s.is_constant) && !lhs.is_set && !rhs.is_set
    else if (ext.get_op_desc s.op).operand_count = 1 then
      !s.is_variable && !lhs.is_set && rhs.well_formed ext
    else if (ext.get_op_desc s.op).operand_count = 2 then
      !s.is_variable && lhs.well_formed ext && rhs.well_formed ext
    else false

/-- The operators of the case labels "Boolean operators will ignore resizing requests". -/
def boolean_operators : List operator_id :=
  [.bit_test, .greater, .greater_eq, .equal, .not_equal, .less_eq, .less, .ugreater,
    .ugreater_eq, .uless_eq, .uless]

/-- Contract of shared references: two set references that are identical denote the same
node, and identity does not depend on the order of the comparison. -/
def references_sound (ext : externals) : Prop :=
  (∀ a b, ext.same_reference a b = true → a = b) ∧
  (∀ a b, ext.same_reference a b = ext.same_reference b a)

/-- Contract of the value abstraction: `resize(width, signed)` yields a value of the
requested width. -/
def resize_sets_width (ext : externals) : Prop :=
  ∀ v n signed_cast, (ext.value_resize v n signed_cast).size = n

/-- Contract of the rewrite engine: it returns an expression of the same width as the one
it is handed. -/
def engine_keeps_width (ext : externals) : Prop :=
  ∀ e prettify, (ext.simplify_expression e prettify).size = e.size

/-- Whether `resize` pushes a width change into the operands of the operator. -/
def propagates (op : operator_id) : Bool :=
  resize_group_of op == .unsigned_class || resize_group_of op == .signed_class

/-- Contract of the value abstraction on result widths: an operator whose operands are
resized in place yields the operand width, both when evaluated on its single operand and
when evaluated on two operands of equal width; `value_if` yields the width of its right
operand. -/
def evaluation_keeps_width (ext : externals) : Prop :=
  (∀ op r, propagates op = true →
    (ext.evaluate_partial op bit_vector.empty r).size = r.size) ∧
  (∀ op l r, propagates op = true → l.size = r.size →
    (ext.evaluate_partial op l r).size = r.size) ∧
  (∀ l r, (ext.evaluate_partial .value_if l r).size = r.size)

/-- Contract of the value abstraction: the width of a partial evaluation depends only on
the operator and the widths of the operands. -/
def evaluation_width_by_operands (ext : externals) : Prop :=
  ∀ op l r l1 r1, l.size = l1.size → r.size = r1.size →
    (ext.evaluate_partial op l r).size = (ext.evaluate_partial op l1 r1).size

/-- Contract of the operator registry: the two cast operators are binary, their second
child holding the target width. -/
def casts_are_binary (ext : externals) : Prop :=
  (ext.get_op_desc .cast).operand_count = 2 ∧ (ext.get_op_desc .ucast).operand_count = 2

/-- Contract of the registry and the value abstraction on the mask operator:
`bitwise_and` is binary and its partial evaluation has the width of the wider operand. -/
def masking_keeps_width (ext : externals) : Prop :=
  (ext.get_op_desc .bitwise_and).operand_count = 2 ∧
  ∀ l r, (ext.evaluate_partial .bitwise_and l r).size = max l.size r.size

/-- A signed-cast node has the width that its second child encodes, which is how `update`
leaves it: `value.resize( rhs->get<uint8_t>().value(), ... )`. -/
def expression.holds_cast_width : expression → Bool
  | .null => true
  | .node s _ rhs => s.op != .cast || rhs.rhs_width == some s.value.size

/-- Numeric tag of an operator in the example registry. -/
def example_tag : operator_id → Nat
  | .invalid => 0 | .bitwise_not => 1 | .bitwise_and => 2 | .bitwise_or => 3
  | .bitwise_xor => 4 | .umultiply_high => 5 | .umultiply => 6 | .udivide => 7
  | .uremainder => 8 | .umax_value => 9 | .umin_value => 10 | .multiply_high => 11
  | .multiply => 12 | .divide => 13 | .remainder => 14 | .add => 15 | .negate => 16
  | .substract => 17 | .max_value => 18 | .min_value => 19 | .ucast => 20 | .cast => 21
  | .value_if => 22 | .bit_test => 23 | .greater => 24 | .greater_eq => 25 | .equal => 26
  | .not_equal => 27 | .less_eq => 28 | .less => 29 | .ugreater => 30 | .ugreater_eq => 31
  | .uless_eq => 32 | .uless => 33 | .other tag => 34 + tag

/-- Descriptors of the example registry: arity, commutativity, class hint. -/
def example_desc : operator_id → operator_desc
  | .invalid => ⟨0, false, 0⟩
  | .bitwise_not => ⟨1, false, 1⟩
  | .bitwise_and | .bitwise_or | .bitwise_xor => ⟨2, true, 1⟩
  | .negate => ⟨1, false, -1⟩
  | .add | .multiply | .multiply_high | .umultiply | .umultiply_high => ⟨2, true, -1⟩
  | .substract | .divide | .remainder | .udivide | .uremainder => ⟨2, false, -1⟩
  | .max_value | .min_value | .umax_value | .umin_value => ⟨2, true, 0⟩
  | .equal | .not_equal => ⟨2, true, 0⟩
  | _ => ⟨2, false, 0⟩

/-- Width change of the example value abstraction: truncation drops the high bits, an
unsigned extension adds known zeros, a signed extension repeats a known sign bit. -/
def example_resize (v : bit_vector) (n : Nat) (signed_cast : Bool) : bit_vector :=
  let added := (2 ^ n - 1) - (2 ^ min n v.bit_count - 1)
  if signed_cast && v.known_one.testBit (v.bit_count - 1) then
    ⟨v.known_one % 2 ^ n ||| added, v.known_zero % 2 ^ n, n⟩
  else if signed_cast && !v.known_zero.testBit (v.bit_count - 1) then
    ⟨v.known_one % 2 ^ n, v.known_zero % 2 ^ n, n⟩
  else ⟨v.known_one % 2 ^ n, v.known_zero % 2 ^ n ||| added, n⟩

/-- Evaluation of the example value abstraction: the result has one bit for the comparison
operators, the width of the right operand for `value_if`, and the larger operand width
otherwise; its bits are left unknown. -/
def example_evaluate (op : operator_id) (lhs rhs : bit_vector) : bit_vector :=
  match resize_group_of op with
  | .boolean_class => ⟨0, 0, 1⟩
  | .value_if => ⟨0, 0, rhs.size⟩
  | _ => ⟨0, 0, max lhs.size rhs.size⟩

/-- The example collaborators. No two references denote the same shared node. -/
def example_externals : externals where
  get_op_desc := example_desc
  operator_bytes := fun op => object_bytes 1 (example_tag op)
  value_resize := example_resize
  evaluate_partial := example_evaluate
  simplify_expression := fun e _ => e
  sqrt := fun n => (((List.range (n + 1)).filter fun k => k * k ≤ n).length - 1 : Nat)
  same_reference := fun _ _ => false

/-- The variable leaf `name:width` as built by its constructor, or `null` on failure. -/
def example_variable (name : String) (hash width : Nat) : expression :=
  (make_variable example_externals (resize example_externals 0) ⟨name, hash⟩ width).getD .null

/-- The operator node `op(lhs, rhs)` as built by `update` without auto-simplify. -/
def example_binary (lhs : expression) (op : operator_id) (rhs : expression) : expression :=
  (make_binary example_externals (resize example_externals 8) lhs op rhs).getD .null

/-- The variable `X:32` of the examples. -/
def example_x : expression := example_variable "X" 1000 32

/-- The variable `Y:32` of the examples. -/
def example_y : expression := example_variable "Y" 2000 32

/-- The variable `Z:16` of the examples. -/
def example_z : expression := example_variable "Z" 4000 16

/-- The one-bit variable `C:1` of the examples, used as a condition. -/
def example_c : expression := example_variable "C" 3000 1

/-- The signed-cast node `cast(X:8, 32)` of the examples, as built by `__cast`. -/
def example_signed_cast : expression :=
  (make_cast example_externals (resize example_externals 0) true
    (example_variable "X" 1000 8) 32).getD .null

/-- The constant leaf `0x7FFFFFFFFFFFFFFF` of width 64 of the examples. -/
def example_large_constant : expression :=
  (make_constant example_externals (resize example_externals 0) (2 ^ 63 - 1) 64).getD .null

/-- The truncating signed cast `cast(X:64, 32)` of the examples: its operand is wider than
its target width. -/
def example_shrunk_cast : expression :=
  (make_cast example_externals (resize example_externals 0) true
    (example_variable "X" 1000 64) 32).getD .null

/-- C2 (hash soundness): whenever `A.equals(B)` returns true, the cached hashes of `A` and
`B` are equal, because `equals` rejects every pair whose hashes differ before looking at
anything else. -/
theorem equals_implies_hash_eq (ext : externals) (A B : expression)
    (h : A.equals ext B = true) : A.hash = B.hash := by
  cases A with
  | null => simp [expression.equals] at h
  | node s lhs rhs =>
    cases B with
    | null => simp [expression.equals] at h
    | node os olhs orhs =>
      unfold expression.equals at h
      by_cases hh : s.hash = os.hash
      · simpa [expression.hash] using hh
      · simp [hh] at h

/-- C2, on an example: `add(X, Y)` and `add(Y, X)` compare equal and share their hash. -/
theorem equals_implies_hash_eq_witness :
    (example_binary example_x .add example_y).equals example_externals
        (example_binary example_y .add example_x) = true ∧
      (example_binary example_x .add example_y).hash =
        (example_binary example_y .add example_x).hash :=
  ⟨by decide!, equals_implies_hash_eq example_externals
    (example_binary example_x .add example_y) (example_binary example_y .add example_x)
    (by decide!)⟩

/-- C4 (operand order of non-commutative operators): for an operator node whose operator
is binary and not commutative, and children `A`, `B` that are neither the same shared
node nor equal under `equals`, `equals(op(A, B), op(B, A))` returns false, whatever the
cached fields of the two nodes are. -/
theorem equals_swapped_noncommutative (ext : externals) (s os : node_state)
    (A B : expression)
    (hexpr : s.is_expression = true) (hvar : s.is_variable = false)
    (hbinary : (ext.get_op_desc s.op).operand_count = 2)
    (hnc : (ext.get_op_desc s.op).is_commutative = false)
    (hshared : reference_eq ext A B = false) (hneq : A.equals ext B = false) :
    (expression.node s A B).equals ext (.node os B A) = false := by
  have hconst : s.is_constant = false := by simp [node_state.is_constant, hexpr]
  unfold expression.equals
  simp [hvar, hconst, hbinary, hnc, hshared, hneq]

/-- C4, on an example: `substract(X, Y)` and `substract(Y, X)` do not compare equal. -/
theorem equals_swapped_noncommutative_witness :
    (example_binary example_x .substract example_y).equals example_externals
      (example_binary example_y .substract example_x) = false := by
  have hxy : example_binary example_x .substract example_y = .node
      ⟨.substract, none, ⟨0, 0, 32⟩, 1, 512, 14028184006769265030, false⟩
      example_x example_y := by decide!
  have hyx : example_binary example_y .substract example_x = .node
      ⟨.substract, none, ⟨0, 0, 32⟩, 1, 512, 15500924282442547734, false⟩
      example_y example_x := by decide!
  rw [hxy, hyx]
  exact equals_swapped_noncommutative example_externals _ _ example_x example_y
    (by decide!) (by decide!) (by decide!) (by decide!) (by decide!) (by decide!)

/-! ## Counting variables -/

/-- Without a caller-supplied set, `count_unique_variables` returns what `count_variables`
returns: the set is never added to, so every occurrence of a variable is counted. -/
theorem count_unique_variables_eq_count_variables (e : expression) :
    e.count_unique_variables none = e.count_variables := by
  show e.count_unique_variables_in [] = e.count_variables
  induction e with
  | null => simp [expression.count_unique_variables_in, expression.count_variables]
  | node s lhs rhs ihl ihr =>
    unfold expression.count_unique_variables_in expression.count_variables
    cases hu : s.uid with
    | none => simp [node_state.is_variable, hu, ihl, ihr]
    | some uid => simp [node_state.is_variable, hu]

/-- An identifier that the caller's set already holds is not counted. -/
theorem count_unique_variables_skips_visited (s : node_state) (lhs rhs : expression)
    (uid : unique_identifier) (visited : List unique_identifier) (hu : s.uid = some uid)
    (hv : uid ∈ visited) :
    (expression.node s lhs rhs).count_unique_variables (some visited) = 0 := by
  simp [expression.count_unique_variables, expression.count_unique_variables_in, hu, hv]

/-- C7 (count of distinct variables): on `add(X, multiply(X, Y))` the code returns 3, the
number of variable occurrences, where the two distinct identifiers `X` and `Y` call for 2:
the set of seen identifiers is only searched, never extended. -/
theorem count_unique_variables_counts_occurrences :
    (example_binary example_x .add
      (example_binary example_x .multiply example_y)).count_unique_variables none = 3 := by
  decide!

/-! ## What `update` leaves behind -/

/-- A simplification result is a node. -/
theorem simplify_is_node (ext : externals) (e e1 : expression) (p : Bool)
    (h : e.simplify ext p = some e1) : e1.is_set = true := by
  unfold expression.simplify at h
  split at h
  · simp at h
  · simp at h; subst h; rfl

/-- Without auto-simplify, the tail of `update` stores the given fields. -/
theorem update_close_false (ext : externals) (s : node_state) (lhs rhs : expression)
    (value : bit_vector) (depth : Nat) (complexity : ℚ) (hash : Nat) :
    update_close ext s lhs rhs value depth complexity hash false =
      some (.node
        { s with
          value := value
          depth := depth
          complexity := mismatch_scale ext s.op (mismatch_scale ext s.op complexity lhs) rhs
          hash := close_hash ext hash s.op depth
          simplify_hint := false } lhs rhs) := by
  simp [update_close]

/-- Shape of a unary node after `update` without auto-simplify. -/
theorem update_unary_false (ext : externals) (s : node_state) (lhs rhs e1 : expression)
    (h : update_unary ext s lhs rhs false = some e1) :
    rhs.is_set = true ∧ unary_score rhs.complexity ≠ 0 ∧
      e1 = .node
        { s with
          value := ext.evaluate_partial s.op bit_vector.empty rhs.value
          depth := rhs.depth + 1
          complexity :=
            mismatch_scale ext s.op
              (mismatch_scale ext s.op (unary_score rhs.complexity) lhs) rhs
          hash := close_hash ext (unary_hash rhs.hash) s.op (rhs.depth + 1)
          simplify_hint := false } lhs rhs := by
  unfold update_unary at h
  cases rhs with
  | null => simp at h
  | node rs rl rr =>
    simp only at h
    split at h
    · simp at h
    · rename_i hc
      rw [update_close_false] at h
      simp only [Option.some.injEq] at h
      exact ⟨rfl, hc, h.symm⟩

/-- Shape of a binary node after `update` without auto-simplify. -/
theorem update_binary_false (ext : externals)
    (resize : expression → Nat → Bool → Option expression) (s : node_state)
    (lhs rhs e1 : expression) (h : update_binary ext resize s lhs rhs false = some e1) :
    ∃ value lhs1 rhs1,
      lhs.is_set = true ∧ rhs.is_set = true ∧
      binary_value ext s.op lhs.value rhs.value = some value ∧
      reconcile_children resize s.op lhs rhs value.size = some (lhs1, rhs1) ∧
      binary_score lhs1.complexity rhs1.complexity ≠ 0 ∧
      e1 = .node
        { s with
          value := value
          depth := max lhs1.depth rhs1.depth + 1
          complexity :=
            mismatch_scale ext s.op
              (mismatch_scale ext s.op (binary_score lhs1.complexity rhs1.complexity) lhs1)
              rhs1
          hash :=
            close_hash ext
              (binary_hash (ext.get_op_desc s.op).is_commutative lhs1.hash rhs1.hash) s.op
              (max lhs1.depth rhs1.depth + 1)
          simplify_hint := false } lhs1 rhs1 := by
  unfold update_binary at h
  cases lhs with
  | null => simp at h
  | node ls ll lr =>
    cases rhs with
    | null => simp at h
    | node rs rl rr =>
      simp only at h
      cases hv : binary_value ext s.op ls.value rs.value with
      | none => simp [hv] at h
      | some value =>
        simp only [hv] at h
        cases hc : reconcile_children resize s.op (.node ls ll lr) (.node rs rl rr) value.size with
        | none => simp [hc] at h
        | some pair =>
          obtain ⟨lhs1, rhs1⟩ := pair
          simp only [hc] at h
          split at h
          · simp at h
          · rename_i hz
            rw [update_close_false] at h
            simp only [Option.some.injEq] at h
            exact ⟨value, lhs1, rhs1, rfl, rfl, hv, hc, hz, h.symm⟩

/-- A leaf after `update`: only depth, complexity, hash and hint are written. -/
theorem update_leaf_shape (ext : externals) (s : node_state) (lhs rhs e1 : expression)
    (h : update_leaf ext s lhs rhs = some e1) :
    ∃ complexity hash,
      e1 = .node { s with depth := 0, complexity := complexity, hash := hash,
                          simplify_hint := true } lhs rhs := by
  unfold update_leaf at h
  split at h
  · split at h
    · simp at h
    · simp only [Option.some.injEq] at h
      exact ⟨_, _, h.symm⟩
  · split at h
    · simp at h
    · simp only [Option.some.injEq] at h
      exact ⟨_, _, h.symm⟩

/-- C9 (depth): after `update` without auto-simplify completes, the depth is 0 on a
constant or variable leaf, `rhs.depth + 1` on a unary operator node, and
`1 + max(lhs.depth, rhs.depth)` on a binary operator node, the child depths being read
from the children as they stand after the width reconciliation. -/
theorem update_depth (ext : externals) (fuel : Nat) (s : node_state)
    (lhs rhs e1 : expression)
    (h : update ext fuel (.node s lhs rhs) false = some e1) :
    (s.is_expression = false → e1.depth = 0) ∧
    (s.is_expression = true → (ext.get_op_desc s.op).operand_count = 1 →
      e1.depth = e1.rhs.depth + 1) ∧
    (s.is_expression = true → (ext.get_op_desc s.op).operand_count = 2 →
      e1.depth = 1 + max e1.lhs.depth e1.rhs.depth) := by
  unfold update update_with at h
  refine ⟨fun hleaf => ?_, fun hexpr hun => ?_, fun hexpr hbin => ?_⟩
  · simp only [hleaf, Bool.not_false, if_true] at h
    obtain ⟨c, hh, rfl⟩ := update_leaf_shape ext s lhs rhs e1 h
    rfl
  · simp only [hexpr, Bool.not_true, hun, if_true] at h
    obtain ⟨-, -, rfl⟩ := update_unary_false ext s lhs rhs e1 (by simpa using h)
    rfl
  · have hne : (ext.get_op_desc s.op).operand_count ≠ 1 := by omega
    simp only [hexpr, Bool.not_true, hbin] at h
    obtain ⟨value, lhs1, rhs1, -, -, -, -, -, rfl⟩ :=
      update_binary_false ext (resize ext fuel) s lhs rhs e1 (by simpa using h)
    simp [expression.depth, expression.lhs, expression.rhs, Nat.add_comm]

/-- C9, on an example: `add(X, Y)` over two leaves of depth 0 has depth 1. -/
theorem update_depth_witness :
    (example_binary example_x .add example_y).depth =
      1 + max (example_binary example_x .add example_y).lhs.depth
        (example_binary example_x .add example_y).rhs.depth :=
  (update_depth example_externals 8 (fresh_state .add none bit_vector.empty) example_x
    example_y (example_binary example_x .add example_y) (by decide!)).2.2
    (by decide!) (by decide!)

/-- The overflow bound is positive. -/
theorem double_overflow_pos : 0 < double_overflow := by
  unfold double_overflow
  positivity

/-- Overflow keeps a positive score positive. -/
theorem saturate_pos (x : ℚ) (hx : 0 < x) : 0 < saturate x := by
  unfold saturate
  split
  · exact double_overflow_pos
  · exact hx

/-- Overflow keeps a score that is not negative so. -/
theorem saturate_nonneg (x : ℚ) (hx : 0 ≤ x) : 0 ≤ saturate x := by
  unfold saturate
  split
  · exact le_of_lt double_overflow_pos
  · exact hx

/-- The scaling step multiplies by one or by two, so it keeps a positive score positive. -/
theorem mismatch_scale_pos (ext : externals) (op : operator_id) (c : ℚ)
    (child : expression) (hc : 0 < c) : 0 < mismatch_scale ext op c child := by
  cases child with
  | null => simpa [mismatch_scale] using hc
  | node os ol or =>
    by_cases he : os.is_expression = true
    · by_cases hneg :
          (ext.get_op_desc os.op).hint_bitwise * (ext.get_op_desc op).hint_bitwise < 0
      · simp only [mismatch_scale, he, if_true, sgn, hneg]
        apply saturate_pos
        norm_num
        exact hc
      · simp only [mismatch_scale, he, if_true, sgn, hneg, if_false]
        apply saturate_pos
        norm_num
        exact hc
    · simpa [mismatch_scale, he] using hc

/-- A reference whose node, when set, has a positive score has a score that is not
negative. -/
theorem complexity_nonneg_of_pos (e : expression)
    (h : e.is_set = true → 0 < e.complexity) : 0 ≤ e.complexity := by
  cases e with
  | null => simp [expression.complexity]
  | node s l r => exact le_of_lt (h rfl)

/-- C8 (positive complexity): for an operator node, unary or binary, whose children have
strictly positive complexity, the complexity stored when `update` without auto-simplify
completes, after the base score and the mismatch scaling, is strictly positive. The
children are the ones the node holds when the score is computed. -/
theorem update_complexity_pos (ext : externals) (fuel : Nat) (s : node_state)
    (lhs rhs e1 : expression) (hexpr : s.is_expression = true)
    (h : update ext fuel (.node s lhs rhs) false = some e1)
    (hl : e1.lhs.is_set = true → 0 < e1.lhs.complexity)
    (hr : e1.rhs.is_set = true → 0 < e1.rhs.complexity) : 0 < e1.complexity := by
  unfold update update_with at h
  simp only [hexpr, Bool.not_true] at h
  by_cases hun : (ext.get_op_desc s.op).operand_count = 1
  · simp only [hun, if_true] at h
    obtain ⟨hset, -, rfl⟩ := update_unary_false ext s lhs rhs e1 (by simpa using h)
    have hpos : 0 < rhs.complexity := hr hset
    simp only [expression.complexity]
    exact mismatch_scale_pos ext _ _ _
      (mismatch_scale_pos ext _ _ _ (saturate_pos _ (by positivity)))
  · by_cases hbin : (ext.get_op_desc s.op).operand_count = 2
    · simp only [hbin] at h
      obtain ⟨value, lhs1, rhs1, hls, hrs, hv, hrec, hz, rfl⟩ :=
        update_binary_false ext (resize ext fuel) s lhs rhs e1 (by simpa using h)
      have hl1 : lhs1.is_set = true → 0 < lhs1.complexity := hl
      have hr1 : rhs1.is_set = true → 0 < rhs1.complexity := hr
      have hl0 := complexity_nonneg_of_pos lhs1 hl1
      have hr0 := complexity_nonneg_of_pos rhs1 hr1
      have hbase : 0 < binary_score lhs1.complexity rhs1.complexity :=
        lt_of_le_of_ne
          (saturate_nonneg _
            (mul_nonneg (saturate_nonneg _ (add_nonneg hl0 hr0)) (by norm_num)))
          (Ne.symm hz)
      simp only [expression.complexity]
      exact mismatch_scale_pos ext _ _ _ (mismatch_scale_pos ext _ _ _ hbase)
    · simp [hun, hbin] at h

/-- C8, on an example: `add(X, Y)` over two variables of score 128 has a positive score. -/
theorem update_complexity_pos_witness :
    0 < (example_binary example_x .add example_y).complexity :=
  update_complexity_pos example_externals 8 (fresh_state .add none bit_vector.empty)
    example_x example_y (example_binary example_x .add example_y) (by decide!) (by decide!)
    (fun _ => by decide!) (fun _ => by decide!)

/-! ## Hashes of structurally equal expressions -/

/-- The pairing of a commutative node does not depend on the order of the children. -/
theorem binary_hash_comm (a b : Nat) : binary_hash true a b = binary_hash true b a := by
  simp [binary_hash, max_comm, Nat.xor_comm]

/-- Structurally equal updated expressions share hash and depth. -/
theorem structurally_equal_hash_depth (ext : externals) :
    ∀ A B : expression, A.updated ext = true → B.updated ext = true →
      A.structurally_equal ext B = true → A.hash = B.hash ∧ A.depth = B.depth := by
  intro A
  induction A with
  | null =>
    intro B _ _ h
    cases B with
    | null => exact ⟨rfl, rfl⟩
    | node _ _ _ => simp [expression.structurally_equal] at h
  | node s lhs rhs ihl ihr =>
    intro B hA hB h
    cases B with
    | null => simp [expression.structurally_equal] at h
    | node os olhs orhs =>
      simp only [expression.updated, Bool.and_eq_true] at hA hB
      obtain ⟨⟨hnA, hlA⟩, hrA⟩ := hA
      obtain ⟨⟨hnB, hlB⟩, hrB⟩ := hB
      simp only [expression.structurally_equal, Bool.and_eq_true, Bool.or_eq_true,
        beq_iff_eq, Bool.not_eq_true'] at h
      obtain ⟨⟨⟨⟨⟨hop, hsize⟩, huid⟩, hconst⟩, hval⟩, hchildren⟩ := h
      have hexpr : os.is_expression = s.is_expression := by
        simp [node_state.is_expression, hop]
      unfold node_updated at hnA hnB
      rw [← hop, hexpr, ← hconst, ← huid] at hnB
      simp only [expression.hash, expression.depth]
      by_cases hleaf : s.is_expression = true
      · simp only [hleaf, Bool.not_true] at hnA hnB
        by_cases hun : (ext.get_op_desc s.op).operand_count = 1
        · simp only [hun, if_true, if_false, Bool.false_eq_true, Bool.and_eq_true,
            beq_iff_eq] at hnA hnB
          have hsame : rhs.structurally_equal ext orhs = true := by
            rcases hchildren with hc | hc
            · exact hc.2
            · simp [hun] at hc
          obtain ⟨hh, hd⟩ := ihr orhs hrA hrB hsame
          obtain ⟨⟨-, hdA⟩, hhA⟩ := hnA
          obtain ⟨⟨-, hdB⟩, hhB⟩ := hnB
          have hdepth : s.depth = os.depth := by rw [hdA, hdB, hd]
          exact ⟨by rw [hhA, hhB, hh, hdepth, hop], hdepth⟩
        · by_cases hbin : (ext.get_op_desc s.op).operand_count = 2
          · rw [if_neg (by simp), if_neg hun, if_pos hbin] at hnA hnB
            simp only [Bool.and_eq_true, beq_iff_eq] at hnA hnB
            obtain ⟨⟨-, hdA⟩, hhA⟩ := hnA
            obtain ⟨⟨-, hdB⟩, hhB⟩ := hnB
            rcases hchildren with hc | hc
            · obtain ⟨hhl, hdl⟩ := ihl olhs hlA hlB hc.1
              obtain ⟨hhr, hdr⟩ := ihr orhs hrA hrB hc.2
              have hdepth : s.depth = os.depth := by rw [hdA, hdB, hdl, hdr]
              exact ⟨by rw [hhA, hhB, hhl, hhr, hdepth, hop], hdepth⟩
            · obtain ⟨⟨⟨-, hcomm⟩, hlr⟩, hrl⟩ := hc
              obtain ⟨hhl, hdl⟩ := ihl orhs hlA hrB hlr
              obtain ⟨hhr, hdr⟩ := ihr olhs hrA hlB hrl
              have hdepth : s.depth = os.depth := by
                rw [hdA, hdB, hdl, hdr, max_comm]
              refine ⟨?_, hdepth⟩
              rw [hhA, hhB, hhl, hhr, hdepth, hop] at *
              rw [hop] at hcomm
              rw [hcomm, binary_hash_comm]
          · simp [hun, hbin] at hnA
      · simp only [Bool.not_eq_true] at hleaf
        simp only [hleaf, Bool.not_false, if_true, Bool.and_eq_true, beq_iff_eq] at hnA hnB
        refine ⟨?_, by rw [hnA.1, hnB.1]⟩
        by_cases hc : s.is_constant = true
        · have hv : s.value = os.value := by simpa [hc] using hval
          simp only [hc, if_true, beq_iff_eq] at hnA hnB
          rw [hnA.2, hnB.2, hv]
        · simp only [hc, if_false, Bool.false_eq_true] at hnA hnB
          cases hu : s.uid with
          | none => simp [hu] at hnA
          | some uid =>
            simp only [hu, beq_iff_eq] at hnA hnB
            rw [hnA.2, hnB.2]
            simp only [variable_hash]
            rw [hsize]

/-- C1 (hash of structurally equal expressions): for expressions `A` and `B` whose cached
hash and depth at every node were produced by `update`, if `A` and `B` are structurally
equal up to reordering the operands of commutative binary operators, then their hashes
are equal, so the hash gate of `equals` does not reject the pair. -/
theorem structurally_equal_hash_eq (ext : externals) (A B : expression)
    (hA : A.updated ext = true) (hB : B.updated ext = true)
    (h : A.structurally_equal ext B = true) : A.hash = B.hash :=
  (structurally_equal_hash_depth ext A B hA hB h).1

/-- C1, on an example: `add(X, multiply(X, Y))` and `add(multiply(Y, X), X)`. -/
theorem structurally_equal_hash_eq_witness :
    (example_binary example_x .add (example_binary example_x .multiply example_y)).hash =
      (example_binary (example_binary example_y .multiply example_x) .add example_x).hash :=
  structurally_equal_hash_eq example_externals
    (example_binary example_x .add (example_binary example_x .multiply example_y))
    (example_binary (example_binary example_y .multiply example_x) .add example_x)
    (by decide!) (by decide!) (by decide!)

/-! ## Commutative symmetry -/

/-- A reference compared with itself: identical or deeply equal. -/
theorem reference_eq_or_equals_self (ext : externals) :
    ∀ e : expression, (reference_eq ext e e || e.equals ext e) = true := by
  intro e
  induction e with
  | null => simp [reference_eq]
  | node s lhs rhs ihl ihr =>
    have hself : (expression.node s lhs rhs).equals ext (.node s lhs rhs) = true := by
      unfold expression.equals
      by_cases hv : s.is_variable = true
      · simp [hv]
      · by_cases hc : s.is_constant = true
        · simp [hv, hc]
        · by_cases hun : (ext.get_op_desc s.op).operand_count = 1
          · simp only [Bool.or_eq_true] at ihr
            simp [hv, hc, hun, ihr]
          · simp only [Bool.or_eq_true] at ihl ihr
            simp [hv, hc, hun, ihl, ihr]
    simp [hself]

/-- The size-mismatch switch treats the two children alike, so swapping them swaps the
result. -/
theorem reconcile_children_swap (resize : expression → Nat → Bool → Option expression)
    (op : operator_id) (lhs rhs lhs1 rhs1 : expression) (width : Nat)
    (h : reconcile_children resize op lhs rhs width = some (lhs1, rhs1)) :
    reconcile_children resize op rhs lhs width = some (rhs1, lhs1) := by
  unfold reconcile_children at h ⊢
  cases hg : size_mismatch_group op with
  | none =>
    simp only [hg, Option.some.injEq, Prod.mk.injEq] at h ⊢
    exact ⟨h.2, h.1⟩
  | some signed_cast =>
    simp only [hg] at h ⊢
    cases hl : reconcile resize lhs width signed_cast with
    | none => simp [hl] at h
    | some l1 =>
      cases hr : reconcile resize rhs width signed_cast with
      | none => simp [hl, hr] at h
      | some r1 =>
        simp only [hl, hr, Option.some.injEq, Prod.mk.injEq] at h ⊢
        exact ⟨h.2, h.1⟩

/-- Converse of `update_binary_false`: the listed ingredients make `update` return. -/
theorem update_binary_false_intro (ext : externals)
    (resize : expression → Nat → Bool → Option expression) (s : node_state)
    (lhs rhs lhs1 rhs1 : expression) (value : bit_vector)
    (hl : lhs.is_set = true) (hr : rhs.is_set = true)
    (hv : binary_value ext s.op lhs.value rhs.value = some value)
    (hrec : reconcile_children resize s.op lhs rhs value.size = some (lhs1, rhs1))
    (hz : binary_score lhs1.complexity rhs1.complexity ≠ 0) :
    update_binary ext resize s lhs rhs false =
      some (.node
        { s with
          value := value
          depth := max lhs1.depth rhs1.depth + 1
          complexity :=
            mismatch_scale ext s.op
              (mismatch_scale ext s.op (binary_score lhs1.complexity rhs1.complexity) lhs1)
              rhs1
          hash :=
            close_hash ext
              (binary_hash (ext.get_op_desc s.op).is_commutative lhs1.hash rhs1.hash) s.op
              (max lhs1.depth rhs1.depth + 1)
          simplify_hint := false } lhs1 rhs1) := by
  cases lhs with
  | null => simp [expression.is_set] at hl
  | node ls ll lr =>
    cases rhs with
    | null => simp [expression.is_set] at hr
    | node rs rl rr =>
      simp only [expression.value] at hv
      unfold update_binary
      simp only [hv, hrec, if_neg hz, update_close_false]

/-- C3 (commutative symmetry): for a commutative binary operator other than the casts and
operands `A`, `B` of equal width, whenever `update` without auto-simplify builds
`op(A, B)` it also builds `op(B, A)`, and the two nodes have the same hash and compare
equal under `equals`, provided the value abstraction derives the result width from the
operator and the operand widths. -/
theorem update_commutative_symmetry (ext : externals) (fuel : Nat) (s : node_state)
    (A B N1 : expression)
    (hexpr : s.is_expression = true) (hvar : s.is_variable = false)
    (hbinary : (ext.get_op_desc s.op).operand_count = 2)
    (hcomm : (ext.get_op_desc s.op).is_commutative = true)
    (hcast : s.op ≠ .ucast ∧ s.op ≠ .cast)
    (hwidth : A.size = B.size) (hev : evaluation_width_by_operands ext)
    (h1 : update ext fuel (.node s A B) false = some N1) :
    ∃ N2, update ext fuel (.node s B A) false = some N2 ∧
      N1.hash = N2.hash ∧ N1.equals ext N2 = true := by
  have hne : (ext.get_op_desc s.op).operand_count ≠ 1 := by omega
  have hnot : ¬ ((!s.is_expression) = true) := by simp [hexpr]
  unfold update update_with at h1 ⊢
  simp only [if_neg hnot, if_neg hne, if_pos hbinary] at h1 ⊢
  obtain ⟨v1, l1, r1, hAset, hBset, hv1, hc1, hz1, rfl⟩ :=
    update_binary_false ext (resize ext fuel) s A B N1 h1
  clear h1
  have hnc : ¬ (s.op = .ucast ∨ s.op = .cast) := by
    rintro (h | h)
    · exact hcast.1 h
    · exact hcast.2 h
  simp only [binary_value, if_neg hnc, Option.some.injEq] at hv1
  have hAB : A.value.size = B.value.size := by
    cases A <;> cases B <;> simp_all [expression.size, expression.value, expression.is_set]
  have hv2 : binary_value ext s.op B.value A.value =
      some (ext.evaluate_partial s.op B.value A.value) := by
    simp only [binary_value, if_neg hnc]
  have hsize : v1.size = (ext.evaluate_partial s.op B.value A.value).size := by
    rw [← hv1]
    exact hev s.op A.value B.value B.value A.value hAB hAB.symm
  rw [hsize] at hc1
  have hswap := reconcile_children_swap (resize ext fuel) s.op A B l1 r1 _ hc1
  have hz2 : binary_score r1.complexity l1.complexity ≠ 0 := by
    rw [binary_score, add_comm]
    exact hz1
  refine ⟨_, update_binary_false_intro ext (resize ext fuel) s B A r1 l1 _ hBset hAset hv2
    hswap hz2, ?_⟩
  generalize ext.evaluate_partial s.op B.value A.value = v2 at hsize
  have hhash :
      close_hash ext (binary_hash (ext.get_op_desc s.op).is_commutative l1.hash r1.hash) s.op
          (max l1.depth r1.depth + 1) =
        close_hash ext (binary_hash (ext.get_op_desc s.op).is_commutative r1.hash l1.hash)
          s.op (max r1.depth l1.depth + 1) := by
    rw [hcomm, binary_hash_comm, max_comm]
  refine ⟨by simpa [expression.hash] using hhash, ?_⟩
  have hl := reference_eq_or_equals_self ext l1
  have hr := reference_eq_or_equals_self ext r1
  simp only [Bool.or_eq_true] at hl hr
  have hop : s.op ≠ operator_id.invalid := by
    simpa [node_state.is_expression] using hexpr
  have huid : s.uid = none := by
    simpa [node_state.is_variable] using hvar
  unfold expression.equals
  simp only [hhash, hsize]
  simp [node_state.is_variable, huid, node_state.is_constant, node_state.is_expression, hop,
    hne, hcomm, hl, hr]

/-- C3, on an example: `add(X, Y)` and `add(Y, X)` for the distinct variables `X`, `Y`. -/
theorem update_commutative_symmetry_witness :
    ∃ N2, update example_externals 8
        (.node (fresh_state .add none bit_vector.empty) example_y example_x) false = some N2 ∧
      (example_binary example_x .add example_y).hash = N2.hash ∧
      (example_binary example_x .add example_y).equals example_externals N2 = true :=
  update_commutative_symmetry example_externals 8 (fresh_state .add none bit_vector.empty)
    example_x example_y (example_binary example_x .add example_y)
    (by decide!) (by decide!) (by decide!)
    (by decide!) (by decide!) (by decide!)
    (by
      intro op l r l1 r1 hl hr
      simp only [example_externals, example_evaluate]
      cases resize_group_of op <;> simp_all [bit_vector.size])
    (by decide!)

/-! ## Width after `resize` -/

/-- The width of a reference is the width of its value. -/
theorem value_size_eq (e : expression) : e.value.size = e.size := by
  cases e <;> rfl

/-- The gateway keeps the width when the rewrite engine does. -/
theorem simplify_size (ext : externals) (heng : engine_keeps_width ext)
    (e e1 : expression) (p : Bool) (h : e.simplify ext p = some e1) : e1.size = e.size := by
  unfold expression.simplify at h
  have hk := heng e p
  split at h
  · simp at h
  · rename_i s1 l1 r1 heq
    simp only [Option.some.injEq] at h
    subst h
    rw [heq] at hk
    simpa [expression.size] using hk

/-- The tail of `update` leaves a node of the width of the value it stores. -/
theorem update_close_size (ext : externals) (heng : engine_keeps_width ext)
    (s : node_state) (lhs rhs e1 : expression) (value : bit_vector) (depth : Nat)
    (complexity : ℚ) (hash : Nat) (auto_simplify : Bool)
    (h : update_close ext s lhs rhs value depth complexity hash auto_simplify = some e1) :
    e1.size = value.size := by
  cases auto_simplify with
  | false =>
    rw [update_close_false] at h
    simp only [Option.some.injEq] at h
    subst h
    rfl
  | true =>
    simp only [update_close, if_true] at h
    rw [simplify_size ext heng _ _ _ h]
    rfl

/-- A leaf keeps its width through `update`. -/
theorem update_leaf_size (ext : externals) (s : node_state) (lhs rhs e1 : expression)
    (h : update_leaf ext s lhs rhs = some e1) : e1.size = s.value.size := by
  obtain ⟨c, hh, rfl⟩ := update_leaf_shape ext s lhs rhs e1 h
  rfl

/-- A unary node takes the width of the evaluation of its operand. -/
theorem update_unary_size (ext : externals) (heng : engine_keeps_width ext)
    (s : node_state) (lhs rhs e1 : expression) (auto_simplify : Bool)
    (h : update_unary ext s lhs rhs auto_simplify = some e1) :
    e1.size = (ext.evaluate_partial s.op bit_vector.empty rhs.value).size := by
  unfold update_unary at h
  cases rhs with
  | null => simp at h
  | node rs rl rr =>
    simp only at h
    split at h
    · simp at h
    · exact update_close_size ext heng _ _ _ _ _ _ _ _ _ h

/-- A binary node takes the width of its computed value. -/
theorem update_binary_size (ext : externals) (heng : engine_keeps_width ext)
    (resize : expression → Nat → Bool → Option expression) (s : node_state)
    (lhs rhs e1 : expression) (auto_simplify : Bool)
    (h : update_binary ext resize s lhs rhs auto_simplify = some e1) :
    ∃ value, binary_value ext s.op lhs.value rhs.value = some value ∧
      e1.size = value.size := by
  unfold update_binary at h
  cases lhs with
  | null => simp at h
  | node ls ll lr =>
    cases rhs with
    | null => simp at h
    | node rs rl rr =>
      simp only at h
      cases hv : binary_value ext s.op ls.value rs.value with
      | none => simp [hv] at h
      | some value =>
        simp only [hv] at h
        cases hc : reconcile_children resize s.op (.node ls ll lr) (.node rs rl rr) value.size with
        | none => simp [hc] at h
        | some pair =>
          obtain ⟨lhs1, rhs1⟩ := pair
          simp only [hc] at h
          split at h
          · simp at h
          · exact ⟨value, hv, update_close_size ext heng _ _ _ _ _ _ _ _ _ h⟩

/-- A constant built by its constructor holds the requested value and width. -/
theorem make_constant_value (ext : externals)
    (resize : expression → Nat → Bool → Option expression) (value width : Nat)
    (c : expression) (h : make_constant ext resize value width = some c) :
    c.value = bit_vector.constant value width ∧ c.rhs_width = some (value % 2 ^ width) := by
  unfold make_constant update_with at h
  simp only [fresh_state, node_state.is_expression, bne_self_eq_false, Bool.not_false,
    if_true] at h
  unfold update_leaf at h
  split at h
  · rename_i hc
    split at h
    · simp at h
    · simp only [Option.some.injEq] at h
      subst h
      have hk : (bit_vector.constant value width).is_known = true := by
        simpa [node_state.is_constant, node_state.is_expression, node_state.is_variable]
          using hc
      refine ⟨rfl, ?_⟩
      simp only [expression.rhs_width, bit_vector.get, hk, if_true]
      simp [bit_vector.constant]
  · simp at h

/-- The width held by a reference is read from its value. -/
theorem rhs_width_eq (e : expression) : e.rhs_width = e.value.get := by
  cases e with
  | null => rfl
  | node s l r => rfl

/-- A cast node updated over a width constant has that width. -/
theorem update_cast_size (ext : externals) (hres : resize_sets_width ext)
    (heng : engine_keeps_width ext) (hcasts : casts_are_binary ext)
    (resize : expression → Nat → Bool → Option expression) (s : node_state)
    (lhs width e1 : expression) (n : Nat) (auto_simplify : Bool)
    (hop : s.op = .cast ∨ s.op = .ucast) (hw : width.rhs_width = some n) (hn : n < 256)
    (h : update_with ext resize (.node s lhs width) auto_simplify = some e1) :
    e1.size = n := by
  have hexpr : s.is_expression = true := by
    rcases hop with h | h <;> simp [node_state.is_expression, h]
  have hbin : (ext.get_op_desc s.op).operand_count = 2 := by
    rcases hop with h | h
    · rw [h]; exact hcasts.1
    · rw [h]; exact hcasts.2
  have hne : (ext.get_op_desc s.op).operand_count ≠ 1 := by omega
  have hnot : ¬ ((!s.is_expression) = true) := by simp [hexpr]
  unfold update_with at h
  simp only [if_neg hnot, if_neg hne, if_pos hbin] at h
  obtain ⟨value, hv, hsize⟩ := update_binary_size ext heng resize s lhs width e1 _ h
  have hor : s.op = .ucast ∨ s.op = .cast := hop.symm
  rw [rhs_width_eq] at hw
  simp only [binary_value, if_pos hor, hw, Option.some.injEq] at hv
  rw [hsize, ← hv, hres, Nat.mod_eq_of_lt hn]

/-- The node built by `__cast` or `__ucast` has the requested width. -/
theorem make_cast_size (ext : externals) (hres : resize_sets_width ext)
    (heng : engine_keeps_width ext) (hcasts : casts_are_binary ext)
    (resize : expression → Nat → Bool → Option expression) (signed_cast : Bool)
    (e c : expression) (n : Nat) (hn : n < 256)
    (h : make_cast ext resize signed_cast e n = some c) : c.size = n := by
  unfold make_cast at h
  cases hc : make_constant ext resize n 8 with
  | none => simp [hc] at h
  | some width =>
    simp only [hc] at h
    have hw := (make_constant_value ext resize n 8 width hc).2
    have hmod : n % 2 ^ 8 = n := Nat.mod_eq_of_lt (by omega)
    rw [hmod] at hw
    unfold make_binary at h
    refine update_cast_size ext hres heng hcasts resize _ e width c n false ?_ hw hn h
    cases signed_cast <;> simp [fresh_state]

/-- Wrapping in a cast and simplifying yields the requested width. -/
theorem wrap_in_cast_size (ext : externals) (hres : resize_sets_width ext)
    (heng : engine_keeps_width ext) (hcasts : casts_are_binary ext)
    (resize : expression → Nat → Bool → Option expression) (signed_cast : Bool)
    (e e1 : expression) (n : Nat) (hn : n < 256)
    (h : wrap_in_cast ext resize signed_cast e n = some e1) : e1.size = n := by
  unfold wrap_in_cast at h
  cases hc : make_cast ext resize signed_cast e n with
  | none => simp [hc] at h
  | some cast =>
    simp only [hc] at h
    rw [simplify_size ext heng _ _ _ h]
    exact make_cast_size ext hres heng hcasts resize signed_cast e cast n hn hc

/-- The shrink path ends in a cast of the requested width. -/
theorem resize_shrunk_size (ext : externals) (hres : resize_sets_width ext)
    (heng : engine_keeps_width ext) (hcasts : casts_are_binary ext)
    (resize : expression → Nat → Bool → Option expression) (signed_cast : Bool)
    (e e1 : expression) (old_width operand_size n : Nat) (hn : n < 256)
    (h : resize_shrunk ext resize signed_cast e old_width operand_size n = some e1) :
    e1.size = n := by
  unfold resize_shrunk at h
  split at h
  · simp at h
  · split at h
    · simp at h
    · split at h
      · simp at h
      · exact wrap_in_cast_size ext hres heng hcasts resize signed_cast _ e1 n hn h

/-- Replacing the width constant of a cast and updating yields the requested width. -/
theorem resize_bump_size (ext : externals) (hres : resize_sets_width ext)
    (heng : engine_keeps_width ext) (hcasts : casts_are_binary ext)
    (resize : expression → Nat → Bool → Option expression) (s : node_state)
    (lhs e1 : expression) (n : Nat) (hop : s.op = .cast ∨ s.op = .ucast) (hn : n < 256)
    (h : resize_bump ext resize s lhs n = some e1) : e1.size = n := by
  unfold resize_bump at h
  cases hc : make_constant ext resize n 8 with
  | none => simp [hc] at h
  | some width =>
    simp only [hc] at h
    have hw := (make_constant_value ext resize n 8 width hc).2
    have hmod : n % 2 ^ 8 = n := Nat.mod_eq_of_lt (by omega)
    rw [hmod] at hw
    exact update_cast_size ext hres heng hcasts resize s lhs width e1 n true hop hw hn h

/-- A child that went through the size-mismatch test has the requested width. -/
theorem reconcile_size (resize : expression → Nat → Bool → Option expression)
    (child c1 : expression) (n : Nat) (signed_cast : Bool)
    (hrs : ∀ e g e1, resize e n g = some e1 → e1.size = n)
    (h : reconcile resize child n signed_cast = some c1) : c1.size = n := by
  unfold reconcile at h
  split at h
  · exact hrs _ _ _ h
  · rename_i hsz
    simp only [Option.some.injEq] at h
    subst h
    simpa using hsz

/-- The operand-wise branch yields the requested width. -/
theorem resize_operands_size (ext : externals) (heng : engine_keeps_width ext)
    (hev : evaluation_keeps_width ext)
    (resize : expression → Nat → Bool → Option expression) (s : node_state)
    (lhs rhs e1 : expression) (n : Nat) (signed_cast : Bool)
    (hprop : propagates s.op = true)
    (hrs : ∀ e g e1, resize e n g = some e1 → e1.size = n)
    (h : resize_operands ext resize s lhs rhs n signed_cast = some e1) : e1.size = n := by
  have hexpr : s.is_expression = true := by
    have hne : s.op ≠ .invalid := by
      intro hc
      simp [propagates, resize_group_of, hc] at hprop
    simpa [node_state.is_expression] using hne
  have hnc : ¬ (s.op = .ucast ∨ s.op = .cast) := by
    rintro (hc | hc) <;> simp [propagates, resize_group_of, hc] at hprop
  have hnot : ¬ ((!s.is_expression) = true) := by simp [hexpr]
  unfold resize_operands at h
  split at h
  · rename_i lhs1 rs rl rr hl
    cases hr1 : reconcile resize (.node rs rl rr) n signed_cast with
    | none => simp [hr1] at h
    | some rhs1 =>
      simp only [hr1] at h
      have hrsize : rhs1.size = n := reconcile_size resize _ rhs1 n signed_cast hrs hr1
      unfold update_with at h
      simp only [if_neg hnot] at h
      by_cases hun : (ext.get_op_desc s.op).operand_count = 1
      · simp only [if_pos hun] at h
        rw [update_unary_size ext heng s lhs1 rhs1 e1 true h, hev.1 s.op _ hprop,
          value_size_eq, hrsize]
      · simp only [if_neg hun] at h
        split at h
        · obtain ⟨value, hv, hsize⟩ :=
            update_binary_size ext heng resize s lhs1 rhs1 e1 true h
          simp only [binary_value, if_neg hnc, Option.some.injEq] at hv
          have hlsize : lhs1.size = n := by
            cases hls : lhs.is_set with
            | false =>
              simp only [hls, Bool.false_eq_true, if_false, Option.some.injEq] at hl
              subst hl
              cases lhs with
              | null => simp [update_binary] at h
              | node _ _ _ => simp [expression.is_set] at hls
            | true =>
              simp only [hls, if_true] at hl
              exact reconcile_size resize _ lhs1 n signed_cast hrs hl
          rw [hsize, ← hv, hev.2.1 s.op _ _ hprop (by rw [value_size_eq, value_size_eq,
            hlsize, hrsize]), value_size_eq, hrsize]
        · simp at h
  · simp at h

/-- On the empty reference `resize` has no result. -/
theorem resize_null (ext : externals) (fuel n : Nat) (signed_cast : Bool) :
    resize ext fuel .null n signed_cast = none := by
  cases fuel <;> rfl

/-- With an exhausted bound `resize` returns only when the width already matches. -/
theorem resize_zero (ext : externals) (s : node_state) (lhs rhs : expression) (n : Nat)
    (signed_cast : Bool) :
    resize ext 0 (.node s lhs rhs) n signed_cast =
      if s.value.size = n then some (.node s lhs rhs) else none := rfl

  /-- One unfolding of `resize` on a node. -/
theorem resize_unfold (ext : externals) (fuel : Nat) (s : node_state) (lhs rhs : expression)
    (n : Nat) (signed_cast : Bool) :
    resize ext (fuel + 1) (.node s lhs rhs) n signed_cast =
      if s.value.size = n then some (.node s lhs rhs)
      else
        match resize_group_of s.op with
        | .leaf =>
          if s.is_constant then
            update_with ext (resize ext fuel)
              (.node { s with value := ext.value_resize s.value n
                                         (if n = 1 then false else signed_cast) } lhs rhs)
              false
          else
            wrap_in_cast ext (resize ext fuel) (if n = 1 then false else signed_cast)
              (.node s lhs rhs) n
        | .unsigned_class =>
          if !(if n = 1 then false else signed_cast) then
            resize_operands ext (resize ext fuel) s lhs rhs n false
          else wrap_in_cast ext (resize ext fuel) true (.node s lhs rhs) n
        | .signed_class =>
          if (if n = 1 then false else signed_cast) then
            resize_operands ext (resize ext fuel) s lhs rhs n true
          else wrap_in_cast ext (resize ext fuel) false (.node s lhs rhs) n
        | .ucast =>
          match lhs, rhs.rhs_width with
          | .node ls ll lr, some width =>
            if ls.value.size > width then
              resize_shrunk ext (resize ext fuel) false (.node s lhs rhs) width ls.value.size n
            else if ls.value.size = n then some (.node ls ll lr)
            else resize_bump ext (resize ext fuel) s lhs n
          | _, _ => none
        | .cast =>
          match lhs, rhs.rhs_width with
          | .node ls ll lr, some width =>
            if ls.value.size > width then
              resize_shrunk ext (resize ext fuel) true (.node s lhs rhs) width ls.value.size n
            else if ls.value.size = n then some (.node ls ll lr)
            else if (if n = 1 then false else signed_cast) then
              resize_bump ext (resize ext fuel) s lhs n
            else wrap_in_cast ext (resize ext fuel) false (.node s lhs rhs) n
          | _, _ => none
        | .value_if =>
          match rhs with
          | .null => none
          | .node rs rl rr =>
            match resize ext fuel (.node rs rl rr) n false with
            | none => none
            | some rhs1 => update_with ext (resize ext fuel) (.node s lhs rhs1) true
        | .boolean_class =>
          some (.node { s with
            hash := (((s.hash : Int) + ((n : Int) - (s.value.size : Int))) % 2 ^ 64).toNat
            value := ext.value_resize s.value n false } lhs rhs)
        | .unhandled =>
          wrap_in_cast ext (resize ext fuel) (if n = 1 then false else signed_cast)
            (.node s lhs rhs) n := rfl

/-- When the width already matches, `resize` returns at once. -/
theorem resize_same_size (ext : externals) (fuel : Nat) (s : node_state)
    (lhs rhs : expression) (n : Nat) (signed_cast : Bool) (h : s.value.size = n) :
    resize ext fuel (.node s lhs rhs) n signed_cast = some (.node s lhs rhs) := by
  cases fuel with
  | zero => rw [resize_zero, if_pos h]
  | succ fuel => exact (resize_unfold ext fuel s lhs rhs n signed_cast).trans (if_pos h)

/-- One unfolding of `resize` when the width differs. -/
theorem resize_succ (ext : externals) (fuel : Nat) (s : node_state) (lhs rhs : expression)
    (n : Nat) (signed_cast : Bool) (h : ¬ s.value.size = n) :
    resize ext (fuel + 1) (.node s lhs rhs) n signed_cast =
      match resize_group_of s.op with
      | .leaf =>
        if s.is_constant then
          update_with ext (resize ext fuel)
            (.node { s with value := ext.value_resize s.value n
                                       (if n = 1 then false else signed_cast) } lhs rhs)
            false
        else
          wrap_in_cast ext (resize ext fuel) (if n = 1 then false else signed_cast)
            (.node s lhs rhs) n
      | .unsigned_class =>
        if !(if n = 1 then false else signed_cast) then
          resize_operands ext (resize ext fuel) s lhs rhs n false
        else wrap_in_cast ext (resize ext fuel) true (.node s lhs rhs) n
      | .signed_class =>
        if (if n = 1 then false else signed_cast) then
          resize_operands ext (resize ext fuel) s lhs rhs n true
        else wrap_in_cast ext (resize ext fuel) false (.node s lhs rhs) n
      | .ucast =>
        match lhs, rhs.rhs_width with
        | .node ls ll lr, some width =>
          if ls.value.size > width then
            resize_shrunk ext (resize ext fuel) false (.node s lhs rhs) width ls.value.size n
          else if ls.value.size = n then some (.node ls ll lr)
          else resize_bump ext (resize ext fuel) s lhs n
        | _, _ => none
      | .cast =>
        match lhs, rhs.rhs_width with
        | .node ls ll lr, some width =>
          if ls.value.size > width then
            resize_shrunk ext (resize ext fuel) true (.node s lhs rhs) width ls.value.size n
          else if ls.value.size = n then some (.node ls ll lr)
          else if (if n = 1 then false else signed_cast) then
            resize_bump ext (resize ext fuel) s lhs n
          else wrap_in_cast ext (resize ext fuel) false (.node s lhs rhs) n
        | _, _ => none
      | .value_if =>
        match rhs with
        | .null => none
        | .node rs rl rr =>
          match resize ext fuel (.node rs rl rr) n false with
          | none => none
          | some rhs1 => update_with ext (resize ext fuel) (.node s lhs rhs1) true
      | .boolean_class =>
        some (.node { s with
          hash := (((s.hash : Int) + ((n : Int) - (s.value.size : Int))) % 2 ^ 64).toNat
          value := ext.value_resize s.value n false } lhs rhs)
      | .unhandled =>
        wrap_in_cast ext (resize ext fuel) (if n = 1 then false else signed_cast)
          (.node s lhs rhs) n :=
  (resize_unfold ext fuel s lhs rhs n signed_cast).trans (if_neg h)

/-- The operators behind the single-operator groups of `resize`. -/
theorem resize_group_of_single (op : operator_id) :
    (resize_group_of op = .leaf → op = .invalid) ∧
    (resize_group_of op = .ucast → op = .ucast) ∧
    (resize_group_of op = .cast → op = .cast) ∧
    (resize_group_of op = .value_if → op = .value_if) := by
  cases op <;> simp [resize_group_of]

/-- Width postcondition of `resize`, for every bound on the nesting of calls. -/
theorem resize_size (ext : externals) (hres : resize_sets_width ext)
    (heng : engine_keeps_width ext) (hev : evaluation_keeps_width ext)
    (hcasts : casts_are_binary ext) :
    ∀ (fuel : Nat) (e : expression) (n : Nat) (signed_cast : Bool) (e1 : expression),
      n < 256 → resize ext fuel e n signed_cast = some e1 → e1.size = n := by
  intro fuel
  induction fuel with
  | zero =>
    intro e n signed_cast e1 _ h
    cases e with
    | null => simp [resize_null] at h
    | node s lhs rhs =>
      rw [resize_zero] at h
      split at h
      · rename_i hsz
        simp only [Option.some.injEq] at h
        subst h
        exact hsz
      · simp at h
  | succ fuel ih =>
    intro e n signed_cast e1 hn h
    have hrs : ∀ e g e1, resize ext fuel e n g = some e1 → e1.size = n :=
      fun e g e1 h => ih e n g e1 hn h
    cases e with
    | null => simp [resize_null] at h
    | node s lhs rhs =>
      by_cases hsz : s.value.size = n
      · rw [resize_same_size ext _ s lhs rhs n signed_cast hsz] at h
        simp only [Option.some.injEq] at h
        subst h
        exact hsz
      · rw [resize_succ ext fuel s lhs rhs n signed_cast hsz] at h
        generalize (if n = 1 then false else signed_cast) = requested at h
        cases hg : resize_group_of s.op with
        | leaf =>
          simp only [hg] at h
          split at h
          · have hop : s.op = .invalid := (resize_group_of_single s.op).1 hg
            unfold update_with at h
            simp only [node_state.is_expression, hop, bne_self_eq_false, Bool.not_false,
              if_true] at h
            rw [update_leaf_size ext _ lhs rhs e1 h]
            exact hres _ _ _
          · exact wrap_in_cast_size ext hres heng hcasts _ _ _ e1 n hn h
        | unsigned_class =>
          simp only [hg] at h
          split at h
          · exact resize_operands_size ext heng hev _ s lhs rhs e1 n false
              (by simp [propagates, hg]) hrs h
          · exact wrap_in_cast_size ext hres heng hcasts _ _ _ e1 n hn h
        | signed_class =>
          simp only [hg] at h
          split at h
          · exact resize_operands_size ext heng hev _ s lhs rhs e1 n true
              (by simp [propagates, hg]) hrs h
          · exact wrap_in_cast_size ext hres heng hcasts _ _ _ e1 n hn h
        | ucast =>
          have hop : s.op = .ucast := (resize_group_of_single s.op).2.1 hg
          simp only [hg] at h
          split at h
          · rename_i ls ll lr width hl hw
            split at h
            · exact resize_shrunk_size ext hres heng hcasts _ _ _ e1 _ _ n hn h
            · split at h
              · rename_i hlsz
                simp only [Option.some.injEq] at h
                subst h
                exact hlsz
              · exact resize_bump_size ext hres heng hcasts _ s _ e1 n (Or.inr hop) hn h
          · simp at h
        | cast =>
          have hop : s.op = .cast := (resize_group_of_single s.op).2.2.1 hg
          simp only [hg] at h
          split at h
          · rename_i ls ll lr width hl hw
            split at h
            · exact resize_shrunk_size ext hres heng hcasts _ _ _ e1 _ _ n hn h
            · split at h
              · rename_i hlsz
                simp only [Option.some.injEq] at h
                subst h
                exact hlsz
              · split at h
                · exact resize_bump_size ext hres heng hcasts _ s _ e1 n (Or.inl hop) hn h
                · exact wrap_in_cast_size ext hres heng hcasts _ _ _ e1 n hn h
          · simp at h
        | value_if =>
          have hop : s.op = .value_if := (resize_group_of_single s.op).2.2.2 hg
          simp only [hg] at h
          split at h
          · simp at h
          · rename_i rs rl rr
            cases hr : resize ext fuel (.node rs rl rr) n false with
            | none => simp [hr] at h
            | some rhs1 =>
              simp only [hr] at h
              have hrsize : rhs1.size = n := hrs _ _ _ hr
              have hexpr : s.is_expression = true := by
                simp [node_state.is_expression, hop]
              have hnot : ¬ ((!s.is_expression) = true) := by simp [hexpr]
              unfold update_with at h
              simp only [if_neg hnot] at h
              by_cases hun : (ext.get_op_desc s.op).operand_count = 1
              · simp only [if_pos hun] at h
                rw [update_unary_size ext heng s lhs rhs1 e1 true h, hop, hev.2.2,
                  value_size_eq, hrsize]
              · simp only [if_neg hun] at h
                split at h
                · obtain ⟨value, hv, hsize⟩ :=
                    update_binary_size ext heng _ s lhs rhs1 e1 true h
                  have hnc : ¬ (s.op = .ucast ∨ s.op = .cast) := by simp [hop]
                  simp only [binary_value, if_neg hnc, Option.some.injEq] at hv
                  rw [hsize, ← hv, hop, hev.2.2, value_size_eq, hrsize]
                · simp at h
        | boolean_class =>
          simp only [hg, Option.some.injEq] at h
          subst h
          exact hres _ _ _
        | unhandled =>
          simp only [hg] at h
          exact wrap_in_cast_size ext hres heng hcasts _ _ _ e1 n hn h

/-- The example value abstraction honours the requested width. -/
theorem example_resize_sets_width : resize_sets_width example_externals := by
  intro v n signed_cast
  simp only [example_externals, example_resize, bit_vector.size]
  split
  · rfl
  · split <;> rfl

/-- The example rewrite engine returns what it is handed. -/
theorem example_engine_keeps_width : engine_keeps_width example_externals := by
  intro e prettify
  rfl

/-- The example value abstraction keeps the operand width. -/
theorem example_evaluation_keeps_width : evaluation_keeps_width example_externals := by
  refine ⟨?_, ?_, ?_⟩
  · intro op r hp
    simp only [propagates, Bool.or_eq_true, beq_iff_eq] at hp
    rcases hp with hp | hp <;>
      simp [example_externals, example_evaluate, hp, bit_vector.size, bit_vector.empty]
  · intro op l r hp hlr
    simp only [propagates, Bool.or_eq_true, beq_iff_eq] at hp
    simp only [bit_vector.size] at hlr
    rcases hp with hp | hp <;>
      simp [example_externals, example_evaluate, hp, bit_vector.size, hlr]
  · intro l r
    simp [example_externals, example_evaluate, resize_group_of, bit_vector.size]

/-- The cast operators of the example registry are binary. -/
theorem example_casts_are_binary : casts_are_binary example_externals :=
  ⟨rfl, rfl⟩

/-- C5 (width postcondition of `resize`): for every expression, whatever the group of its
operator, every target width that fits the byte-wide parameter and every signedness flag,
once `resize` completes the expression has the target width. The rewrite engine is
assumed to return an expression of the width it is handed, the value abstraction to
honour the width requested of `resize` and to keep the operand width when it evaluates
an operator whose operands are resized in place, and the registry to declare the two
cast operators binary. -/
theorem resize_width_postcondition (ext : externals) (fuel : Nat) (e e1 : expression)
    (w : Nat) (signed_cast : Bool)
    (hres : resize_sets_width ext) (heng : engine_keeps_width ext)
    (hev : evaluation_keeps_width ext) (hcasts : casts_are_binary ext) (hw : w < 256)
    (h : resize ext fuel e w signed_cast = some e1) : e1.size = w :=
  resize_size ext hres heng hev hcasts fuel e w signed_cast e1 hw h

/-- C5, on an example: `add(X:32, Y:32)` resized to 64 bits, signed, has 64 bits. -/
theorem resize_width_postcondition_witness :
    ((resize example_externals 4 (example_binary example_x .add example_y) 64 true).getD
      .null).size = 64 :=
  resize_width_postcondition example_externals 4
    (example_binary example_x .add example_y)
    ((resize example_externals 4 (example_binary example_x .add example_y) 64 true).getD .null)
    64 true example_resize_sets_width example_engine_keeps_width
    example_evaluation_keeps_width example_casts_are_binary (by decide) (by decide!)

/-! ## Repeating a `resize` -/

/-- The tail of `update` yields a node. -/
theorem update_close_is_node (ext : externals) (s : node_state) (lhs rhs e1 : expression)
    (value : bit_vector) (depth : Nat) (complexity : ℚ) (hash : Nat) (auto_simplify : Bool)
    (h : update_close ext s lhs rhs value depth complexity hash auto_simplify = some e1) :
    e1.is_set = true := by
  cases auto_simplify with
  | false =>
    rw [update_close_false] at h
    simp only [Option.some.injEq] at h
    subst h
    rfl
  | true =>
    simp only [update_close, if_true] at h
    exact simplify_is_node ext _ e1 _ h

/-- Whatever `update` returns is a node. -/
theorem update_with_is_node (ext : externals)
    (resize : expression → Nat → Bool → Option expression) (e e1 : expression)
    (auto_simplify : Bool) (h : update_with ext resize e auto_simplify = some e1) :
    e1.is_set = true := by
  unfold update_with at h
  cases e with
  | null => simp at h
  | node s lhs rhs =>
    simp only at h
    split at h
    · obtain ⟨c, hh, rfl⟩ := update_leaf_shape ext s lhs rhs e1 h
      rfl
    · split at h
      · unfold update_unary at h
        split at h
        · simp at h
        · split at h
          · simp at h
          · exact update_close_is_node ext _ _ _ _ _ _ _ _ _ h
      · split at h
        · unfold update_binary at h
          split at h
          · split at h
            · simp at h
            · split at h
              · simp at h
              · split at h
                · simp at h
                · exact update_close_is_node ext _ _ _ _ _ _ _ _ _ h
          · simp at h
        · simp at h

/-- Whatever the cast wrapper returns is a node. -/
theorem wrap_in_cast_is_node (ext : externals)
    (resize : expression → Nat → Bool → Option expression) (signed_cast : Bool)
    (e e1 : expression) (n : Nat) (h : wrap_in_cast ext resize signed_cast e n = some e1) :
    e1.is_set = true := by
  unfold wrap_in_cast at h
  split at h
  · simp at h
  · exact simplify_is_node ext _ e1 _ h

/-- Whatever `resize` returns is a node. -/
theorem resize_is_node (ext : externals) (fuel : Nat) (e e1 : expression) (n : Nat)
    (signed_cast : Bool) (h : resize ext fuel e n signed_cast = some e1) :
    e1.is_set = true := by
  cases e with
  | null => simp [resize_null] at h
  | node s lhs rhs =>
    by_cases hsz : s.value.size = n
    · rw [resize_same_size ext _ s lhs rhs n signed_cast hsz] at h
      simp only [Option.some.injEq] at h
      subst h
      rfl
    · cases fuel with
      | zero => simp [resize_zero, hsz] at h
      | succ fuel =>
        rw [resize_succ ext fuel s lhs rhs n signed_cast hsz] at h
        generalize (if n = 1 then false else signed_cast) = requested at h
        cases hg : resize_group_of s.op with
        | leaf =>
          simp only [hg] at h
          split at h
          · exact update_with_is_node ext _ _ e1 _ h
          · exact wrap_in_cast_is_node ext _ _ _ e1 n h
        | unsigned_class =>
          simp only [hg] at h
          split at h
          · unfold resize_operands at h
            split at h
            · split at h
              · simp at h
              · exact update_with_is_node ext _ _ e1 _ h
            · simp at h
          · exact wrap_in_cast_is_node ext _ _ _ e1 n h
        | signed_class =>
          simp only [hg] at h
          split at h
          · unfold resize_operands at h
            split at h
            · split at h
              · simp at h
              · exact update_with_is_node ext _ _ e1 _ h
            · simp at h
          · exact wrap_in_cast_is_node ext _ _ _ e1 n h
        | ucast =>
          simp only [hg] at h
          split at h
          · split at h
            · unfold resize_shrunk at h
              split at h
              · simp at h
              · split at h
                · simp at h
                · split at h
                  · simp at h
                  · exact wrap_in_cast_is_node ext _ _ _ e1 n h
            · split at h
              · simp only [Option.some.injEq] at h
                subst h
                rfl
              · unfold resize_bump at h
                split at h
                · simp at h
                · exact update_with_is_node ext _ _ e1 _ h
          · simp at h
        | cast =>
          simp only [hg] at h
          split at h
          · split at h
            · unfold resize_shrunk at h
              split at h
              · simp at h
              · split at h
                · simp at h
                · split at h
                  · simp at h
                  · exact wrap_in_cast_is_node ext _ _ _ e1 n h
            · split at h
              · simp only [Option.some.injEq] at h
                subst h
                rfl
              · split at h
                · unfold resize_bump at h
                  split at h
                  · simp at h
                  · exact update_with_is_node ext _ _ e1 _ h
                · exact wrap_in_cast_is_node ext _ _ _ e1 n h
          · simp at h
        | value_if =>
          simp only [hg] at h
          split at h
          · simp at h
          · split at h
            · simp at h
            · exact update_with_is_node ext _ _ e1 _ h
        | boolean_class =>
          simp only [hg, Option.some.injEq] at h
          subst h
          rfl
        | unhandled =>
          simp only [hg] at h
          exact wrap_in_cast_is_node ext _ _ _ e1 n h

/-- C6 (idempotence of `resize`): a second `resize(w, s)` directly after a first one that
completed is a no-op: it returns at once and leaves the expression, with its cached
width, value and hash, exactly as the first call left it. The contracts are those of the
width postcondition. -/
theorem resize_idempotent (ext : externals) (fuel fuel2 : Nat) (e e1 : expression) (w : Nat)
    (signed_cast : Bool)
    (hres : resize_sets_width ext) (heng : engine_keeps_width ext)
    (hev : evaluation_keeps_width ext) (hcasts : casts_are_binary ext) (hw : w < 256)
    (h : resize ext fuel e w signed_cast = some e1) :
    resize ext fuel2 e1 w signed_cast = some e1 := by
  have hsize := resize_size ext hres heng hev hcasts fuel e w signed_cast e1 hw h
  have hnode := resize_is_node ext fuel e e1 w signed_cast h
  cases e1 with
  | null => simp [expression.is_set] at hnode
  | node s lhs rhs => exact resize_same_size ext fuel2 s lhs rhs w signed_cast hsize

/-- C6, on an example: resizing a comparison `equal(X, Y)` to 8 bits twice. -/
theorem resize_idempotent_witness :
    resize example_externals 0
        ((resize example_externals 1 (example_binary example_x .equal example_y) 8 false).getD
          .null) 8 false =
      some ((resize example_externals 1 (example_binary example_x .equal example_y) 8
        false).getD .null) :=
  resize_idempotent example_externals 1 0 (example_binary example_x .equal example_y)
    ((resize example_externals 1 (example_binary example_x .equal example_y) 8 false).getD
      .null) 8 false example_resize_sets_width example_engine_keeps_width
    example_evaluation_keeps_width example_casts_are_binary (by decide) (by decide!)

/-! ## Widths of the children after `update` -/

/-- C10, as stated, fails on `value_if`: after `update` of `value_if(C:1, X:32)` the node
and its right child have 32 bits while the left child keeps its single bit. -/
theorem update_value_if_keeps_condition_width :
    (update example_externals 8
        (.node (fresh_state .value_if none bit_vector.empty) example_c example_x) false).map
      (fun n => (n.lhs.size, n.rhs.size, n.size)) = some (1, 32, 32) := by
  decide!

/-- C10, amended: for a binary operator node whose operator has a label in the
size-mismatch switch of `update` (the unsigned group including `umultiply_high`, the
signed group including `multiply_high`), once `update` without auto-simplify completes
both children have the node's result width, provided `resize` on a child establishes the
requested width. -/
theorem update_children_width (ext : externals) (fuel : Nat) (s : node_state)
    (lhs rhs e1 : expression) (signed_cast : Bool)
    (hgroup : size_mismatch_group s.op = some signed_cast)
    (hbinary : (ext.get_op_desc s.op).operand_count = 2)
    (hrs : ∀ c g c1, resize ext fuel c e1.size g = some c1 → c1.size = e1.size)
    (h : update ext fuel (.node s lhs rhs) false = some e1) :
    e1.lhs.size = e1.size ∧ e1.rhs.size = e1.size := by
  have hop : s.op ≠ .invalid := by
    intro hc
    simp [hc, size_mismatch_group] at hgroup
  have hnot : ¬ ((!s.is_expression) = true) := by
    simpa [node_state.is_expression] using hop
  have hne : (ext.get_op_desc s.op).operand_count ≠ 1 := by omega
  unfold update update_with at h
  simp only [if_neg hnot, if_neg hne, if_pos hbinary] at h
  obtain ⟨value, lhs1, rhs1, -, -, -, hrec, -, rfl⟩ :=
    update_binary_false ext (resize ext fuel) s lhs rhs e1 h
  simp only [expression.size, expression.lhs, expression.rhs] at hrs ⊢
  unfold reconcile_children at hrec
  simp only [hgroup] at hrec
  cases hl : reconcile (resize ext fuel) lhs value.size signed_cast with
  | none => simp [hl] at hrec
  | some l1 =>
    cases hr : reconcile (resize ext fuel) rhs value.size signed_cast with
    | none => simp [hl, hr] at hrec
    | some r1 =>
      simp only [hl, hr, Option.some.injEq, Prod.mk.injEq] at hrec
      obtain ⟨rfl, rfl⟩ := hrec
      exact ⟨reconcile_size _ lhs l1 _ signed_cast hrs hl,
        reconcile_size _ rhs r1 _ signed_cast hrs hr⟩

/-- C10 amended, on an example: in `add(X:32, Z:16)` the narrower child is resized, and
both children end with the 32 bits of the node. -/
theorem update_children_width_witness :
    (example_binary example_x .add example_z).lhs.size =
        (example_binary example_x .add example_z).size ∧
      (example_binary example_x .add example_z).rhs.size =
        (example_binary example_x .add example_z).size :=
  update_children_width example_externals 8 (fresh_state .add none bit_vector.empty)
    example_x example_z (example_binary example_x .add example_z) true (by decide!)
    (by decide!)
    (fun c g c1 hc => by
      have h32 : (example_binary example_x .add example_z).size = 32 := by decide!
      rw [h32] at hc ⊢
      exact resize_size example_externals example_resize_sets_width
        example_engine_keeps_width example_evaluation_keeps_width example_casts_are_binary
        8 c 32 g c1 (by decide) hc)
    (by decide!)

/-! ## `update` establishes the cached hash and depth -/

/-- The node that `update` without auto-simplify returns carries the hash and depth that
the predicate `node_updated` describes. -/
theorem update_establishes_node_updated (ext : externals) (fuel : Nat) (s s1 : node_state)
    (lhs rhs l1 r1 : expression)
    (h : update ext fuel (.node s lhs rhs) false = some (.node s1 l1 r1)) :
    node_updated ext s1 l1 r1 = true := by
  unfold update update_with at h
  by_cases hexpr : s.is_expression = true
  · have hnot : ¬ ((!s.is_expression) = true) := by simp [hexpr]
    simp only [if_neg hnot] at h
    by_cases hun : (ext.get_op_desc s.op).operand_count = 1
    · simp only [if_pos hun] at h
      obtain ⟨hset, -, heq⟩ := update_unary_false ext s lhs rhs _ h
      simp only [expression.node.injEq] at heq
      obtain ⟨rfl, rfl, rfl⟩ := heq
      unfold node_updated
      simp only [node_state.is_expression] at hnot ⊢
      rw [if_neg hnot, if_pos hun]
      simp [hset]
    · simp only [if_neg hun] at h
      by_cases hbin : (ext.get_op_desc s.op).operand_count = 2
      · simp only [if_pos hbin] at h
        obtain ⟨value, lhs1, rhs1, hls, hrs, -, hrec, -, heq⟩ :=
          update_binary_false ext (resize ext fuel) s lhs rhs _ h
        simp only [expression.node.injEq] at heq
        obtain ⟨rfl, rfl, rfl⟩ := heq
        have hsets : l1.is_set = true ∧ r1.is_set = true := by
          unfold reconcile_children at hrec
          split at hrec
          · split at hrec
            · rename_i a b hl hr
              simp only [Option.some.injEq, Prod.mk.injEq] at hrec
              obtain ⟨rfl, rfl⟩ := hrec
              constructor
              · unfold reconcile at hl
                split at hl
                · exact resize_is_node ext fuel _ _ _ _ hl
                · simp only [Option.some.injEq] at hl
                  subst hl
                  exact hls
              · unfold reconcile at hr
                split at hr
                · exact resize_is_node ext fuel _ _ _ _ hr
                · simp only [Option.some.injEq] at hr
                  subst hr
                  exact hrs
            · simp at hrec
          · simp only [Option.some.injEq, Prod.mk.injEq] at hrec
            obtain ⟨rfl, rfl⟩ := hrec
            exact ⟨hls, hrs⟩
        unfold node_updated
        simp only [node_state.is_expression] at hnot ⊢
        rw [if_neg hnot, if_neg hun, if_pos hbin]
        simp [hsets.1, hsets.2]
      · simp [hbin] at h
  · have hleaf : (!s.is_expression) = true := by simpa using hexpr
    simp only [if_pos hleaf] at h
    unfold update_leaf at h
    split at h
    · rename_i hc
      split at h
      · simp at h
      · simp only [Option.some.injEq, expression.node.injEq] at h
        obtain ⟨rfl, rfl, rfl⟩ := h
        unfold node_updated
        simp only [node_state.is_expression, node_state.is_constant,
          node_state.is_variable] at hleaf hc ⊢
        have hc2 : s.uid = none ∧ s.value.is_known = true := by
          cases hu : s.uid <;> simp_all
        simp [hleaf, hc2.1, hc2.2]
    · rename_i hc
      split at h
      · simp at h
      · rename_i uid hu
        simp only [Option.some.injEq, expression.node.injEq] at h
        obtain ⟨rfl, rfl, rfl⟩ := h
        unfold node_updated
        simp only [node_state.is_expression, node_state.is_constant,
          node_state.is_variable] at hleaf hc ⊢
        simp [hleaf, hc, hu]

/-! ## The pairing of child hashes under a commutative operator -/

/-- The hash of a commutative node is the seed followed by the two words of the pairing. -/
theorem binary_hash_words (a b : Nat) :
    binary_hash true a b =
      fnv_append (fnv_append fnv_initial (object_bytes 8 (commutative_words a b).1))
        (object_bytes 8 (commutative_words a b).2) := rfl

/-- C20 (the pairing loses nothing but the order): the two words appended for the children
of a commutative node, `max(a, b)` and `a xor b`, coincide for the child hashes `a, b` and
`c, d` if and only if the unordered pairs `{a, b}` and `{c, d}` are equal; so they are the
same for `op(A, B)` and `op(B, A)` and differ whenever the two child hashes differ as a
multiset. -/
theorem commutative_words_eq_iff (a b c d : Nat) :
    commutative_words a b = commutative_words c d ↔ (a = c ∧ b = d) ∨ (a = d ∧ b = c) := by
  simp only [commutative_words, Prod.mk.injEq]
  constructor
  · rintro ⟨hm, hx⟩
    rcases le_total a b with hab | hab <;> rcases le_total c d with hcd | hcd
    · rw [max_eq_right hab, max_eq_right hcd] at hm
      subst hm
      exact Or.inl ⟨(Nat.xor_right_inj.mp hx), rfl⟩
    · rw [max_eq_right hab, max_eq_left hcd] at hm
      subst hm
      rw [Nat.xor_comm d b] at hx
      exact Or.inr ⟨(Nat.xor_right_inj.mp hx), rfl⟩
    · rw [max_eq_left hab, max_eq_right hcd] at hm
      subst hm
      rw [Nat.xor_comm b a] at hx
      exact Or.inr ⟨rfl, (Nat.xor_right_inj.mp hx)⟩
    · rw [max_eq_left hab, max_eq_left hcd] at hm
      subst hm
      exact Or.inl ⟨rfl, (Nat.xor_left_inj.mp hx)⟩
  · rintro (⟨rfl, rfl⟩ | ⟨rfl, rfl⟩)
    · exact ⟨rfl, rfl⟩
    · exact ⟨max_comm _ _, Nat.xor_comm _ _⟩

/-! ## Resizing comparison operators and one-bit targets -/

/-- The comparison operators fall under the boolean case labels of `resize`. -/
theorem resize_group_of_boolean (op : operator_id) (h : op ∈ boolean_operators) :
    resize_group_of op = .boolean_class := by
  simp only [boolean_operators, List.mem_cons, List.mem_singleton, List.not_mem_nil,
    or_false] at h
  rcases h with h | h | h | h | h | h | h | h | h | h | h <;> subst h <;> rfl

/-- C16 (resize of a comparison operator): for a node whose operator is one of `bit_test`,
`greater`, `greater_eq`, `equal`, `not_equal`, `less_eq`, `less`, `ugreater`,
`ugreater_eq`, `uless_eq`, `uless` and a width `w` other than its own, `resize` returns
the node with `op`, `lhs`, `rhs`, depth and complexity untouched, the hash set to the
old hash plus `w` minus the old width modulo `2 ^ 64`, and the value set to width `w`;
neither `update` nor the rewrite engine takes part in the result. -/
theorem resize_boolean_operator (ext : externals) (fuel : Nat) (s : node_state)
    (lhs rhs : expression) (w : Nat) (signed_cast : Bool)
    (hop : s.op ∈ boolean_operators) (hw : s.value.size ≠ w) :
    resize ext (fuel + 1) (.node s lhs rhs) w signed_cast =
      some (.node
        { s with
          hash := (((s.hash : Int) + ((w : Int) - (s.value.size : Int))) % 2 ^ 64).toNat
          value := ext.value_resize s.value w false } lhs rhs) := by
  rw [resize_succ ext fuel s lhs rhs w signed_cast hw]
  simp only [resize_group_of_boolean s.op hop]

/-- C16, on an example: `equal(X, Y)` of width 1 resized to 8 bits has its hash raised by
7 and keeps its children, depth and complexity. -/
theorem resize_boolean_operator_witness :
    resize example_externals 1
        (.node ⟨.equal, none, ⟨0, 0, 1⟩, 1, 512, 11840388428260177840, false⟩
          example_x example_y) 8 true =
      some (.node ⟨.equal, none, ⟨0, 254, 8⟩, 1, 512, 11840388428260177847, false⟩
        example_x example_y) :=
  (resize_boolean_operator example_externals 0
    ⟨.equal, none, ⟨0, 0, 1⟩, 1, 512, 11840388428260177840, false⟩
    example_x example_y 8 true (by decide) (by decide)).trans (by decide!)

/-- A signed-cast node that `update` without auto-simplify returns has the width that its
second child encodes. -/
theorem update_holds_cast_width (ext : externals) (hres : resize_sets_width ext)
    (hcasts : casts_are_binary ext)
    (resize : expression → Nat → Bool → Option expression) (s : node_state)
    (lhs width e1 : expression) (n : Nat) (hop : s.op = .cast)
    (hw : width.rhs_width = some n) (hn : n < 256)
    (h : update_with ext resize (.node s lhs width) false = some e1) :
    e1.holds_cast_width = true := by
  have hexpr : s.is_expression = true := by simp [node_state.is_expression, hop]
  have hbin : (ext.get_op_desc s.op).operand_count = 2 := by rw [hop]; exact hcasts.1
  have hne : (ext.get_op_desc s.op).operand_count ≠ 1 := by omega
  have hnot : ¬ ((!s.is_expression) = true) := by simp [hexpr]
  unfold update_with at h
  simp only [if_neg hnot, if_neg hne, if_pos hbin] at h
  obtain ⟨value, lhs1, rhs1, -, -, hv, hrc, -, rfl⟩ :=
    update_binary_false ext resize s lhs width e1 h
  simp only [reconcile_children, hop, size_mismatch_group, Option.some.injEq,
    Prod.mk.injEq] at hrc
  obtain ⟨-, rfl⟩ := hrc
  have hw2 := hw
  rw [rhs_width_eq] at hw2
  simp only [binary_value, hop, or_true, if_true, hw2, Option.some.injEq] at hv
  subst hv
  have hsize := hres lhs.value n true
  simp [expression.holds_cast_width, hw, hsize, Nat.mod_eq_of_lt hn]

/-- Masking a cast-like node with a wider mask resizes the node to the width of the mask,
and has no result when that resize has none. -/
theorem make_binary_mask_none (ext : externals) (hmask : masking_keeps_width ext)
    (resize : expression → Nat → Bool → Option expression) (s : node_state)
    (lhs rhs mask : expression) (hlt : s.value.size < mask.size)
    (hr : resize (.node s lhs rhs) mask.size false = none) :
    make_binary ext resize (.node s lhs rhs) .bitwise_and mask = none := by
  obtain ⟨hbin, hmax⟩ := hmask
  cases mask with
  | null => simp [expression.size] at hlt
  | node ms ml mr =>
    simp only [expression.size] at hlt hr
    have hne : (ext.get_op_desc .bitwise_and).operand_count ≠ 1 := by omega
    have hsz : (ext.evaluate_partial .bitwise_and s.value ms.value).size = ms.value.size := by
      rw [hmax]; exact max_eq_right (le_of_lt hlt)
    have hne2 : s.value.size ≠ ms.value.size := by omega
    simp only [make_binary, update_with, fresh_state, node_state.is_expression, update_binary,
      binary_value, reconcile_children, size_mismatch_group, reconcile, expression.size,
      if_neg hne, if_pos hbin]
    simp [hsz, hne2, hr]

/-- The shrink path has no result when the resize of the node to its operand width has
none. -/
theorem resize_shrunk_none (ext : externals) (hmask : masking_keeps_width ext)
    (resize : expression → Nat → Bool → Option expression) (signed_cast : Bool)
    (s : node_state) (lhs rhs : expression) (width operand_size n : Nat)
    (hlt : s.value.size < operand_size)
    (hr : resize (.node s lhs rhs) operand_size false = none) :
    resize_shrunk ext resize signed_cast (.node s lhs rhs) width operand_size n = none := by
  unfold resize_shrunk
  cases hc : make_constant ext resize (fill width) operand_size with
  | none => rfl
  | some mask =>
    have hsize : mask.size = operand_size := by
      have h := (make_constant_value ext resize _ _ mask hc).1
      rw [← value_size_eq, h]
      rfl
    have hb := make_binary_mask_none ext hmask resize s lhs rhs mask (by omega)
      (by rw [hsize]; exact hr)
    simp only [hb]

/-- A cast node narrower than its operand cannot be resized: the shrink path masks the
node, the `update` of the mask resizes the node to its operand width, and that resize
takes the shrink path again, for every bound on the nesting of calls. -/
theorem resize_shrunk_cast_none (ext : externals) (hmask : masking_keeps_width ext)
    (s ls : node_state) (ll lr rhs : expression) (width : Nat)
    (hop : s.op = .cast ∨ s.op = .ucast) (hw : rhs.rhs_width = some width)
    (hshrunk : ls.value.size > width) (hlt : s.value.size < ls.value.size) :
    ∀ (fuel n : Nat) (signed_cast : Bool), s.value.size ≠ n →
      resize ext fuel (.node s (.node ls ll lr) rhs) n signed_cast = none := by
  intro fuel
  induction fuel with
  | zero =>
    intro n signed_cast hn
    rw [resize_zero, if_neg hn]
  | succ fuel ih =>
    intro n signed_cast hn
    rw [resize_succ ext fuel s _ rhs n signed_cast hn]
    have hr := ih ls.value.size false (by omega)
    rcases hop with hop | hop
    · have hg : resize_group_of s.op = .cast := by rw [hop]; rfl
      simp only [hg, hw, if_pos hshrunk]
      exact resize_shrunk_none ext hmask _ _ s _ rhs width _ n hlt hr
    · have hg : resize_group_of s.op = .ucast := by rw [hop]; rfl
      simp only [hg, hw, if_pos hshrunk]
      exact resize_shrunk_none ext hmask _ _ s _ rhs width _ n hlt hr

/-- The same, read through the accessors of the node. -/
theorem resize_shrunk_cast_none_of (ext : externals) (hmask : masking_keeps_width ext)
    (e : expression) (width : Nat) (hop : e.op = .cast ∨ e.op = .ucast)
    (hw : e.rhs.rhs_width = some width) (hshrunk : e.lhs.size > width)
    (hlt : e.size < e.lhs.size) (fuel n : Nat) (signed_cast : Bool) (hn : e.size ≠ n) :
    resize ext fuel e n signed_cast = none := by
  cases e with
  | null => exact resize_null ext fuel n signed_cast
  | node s lhs rhs =>
    cases lhs with
    | null => simp [expression.lhs, expression.size] at hshrunk
    | node ls ll lr =>
      exact resize_shrunk_cast_none ext hmask s ls ll lr rhs width hop hw hshrunk hlt
        fuel n signed_cast hn

/-- The example collaborators meet the contract on the mask operator. -/
theorem example_masking_keeps_width : masking_keeps_width example_externals :=
  ⟨rfl, fun _ _ => rfl⟩

/-- The shrink path on an example: the truncating cast `cast(X:64, 32)` has no one-bit
resize, whatever the bound on the nesting of calls. -/
theorem resize_shrunk_cast_example (fuel : Nat) (signed_cast : Bool) :
    resize example_externals fuel example_shrunk_cast 1 signed_cast = none :=
  resize_shrunk_cast_none_of example_externals example_masking_keeps_width
    example_shrunk_cast 32 (Or.inl (by decide!)) (by decide!) (by decide!) (by decide!)
    fuel 1 signed_cast (by decide!)

/-- C11 (value of a cast node): for a `cast` or `ucast` node whose right child is a
constant `c` that fits the byte read by `get<uint8_t>()`, after `update` without
auto-simplify the node's value is the left child's value resized to width `c`, signed
for `cast` and unsigned for `ucast`, so the node has width `c`; both children are left
as they were. The registry declares the cast operators binary and the value abstraction
honours the requested width. -/
theorem update_cast_value (ext : externals) (fuel : Nat) (s : node_state)
    (lhs rhs e1 : expression) (c : Nat)
    (hop : s.op = .cast ∨ s.op = .ucast) (hcasts : casts_are_binary ext)
    (hres : resize_sets_width ext) (hc : rhs.rhs_width = some c) (hbyte : c < 256)
    (h : update ext fuel (.node s lhs rhs) false = some e1) :
    e1.value = ext.value_resize lhs.value c (s.op == .cast) ∧ e1.size = c ∧
      e1.lhs = lhs ∧ e1.rhs = rhs := by
  have hexpr : s.is_expression = true := by
    rcases hop with h | h <;> simp [node_state.is_expression, h]
  have hbin : (ext.get_op_desc s.op).operand_count = 2 := by
    rcases hop with h | h
    · rw [h]; exact hcasts.1
    · rw [h]; exact hcasts.2
  have hne : (ext.get_op_desc s.op).operand_count ≠ 1 := by omega
  have hnot : ¬ ((!s.is_expression) = true) := by simp [hexpr]
  have hgroup : size_mismatch_group s.op = none := by
    rcases hop with h | h <;> rw [h] <;> rfl
  unfold update update_with at h
  simp only [if_neg hnot, if_neg hne, if_pos hbin] at h
  obtain ⟨value, lhs1, rhs1, -, -, hv, hrec, -, rfl⟩ :=
    update_binary_false ext (resize ext fuel) s lhs rhs e1 h
  rw [rhs_width_eq] at hc
  simp only [binary_value, if_pos hop.symm, hc, Option.some.injEq] at hv
  simp only [reconcile_children, hgroup, Option.some.injEq, Prod.mk.injEq] at hrec
  obtain ⟨rfl, rfl⟩ := hrec
  rw [Nat.mod_eq_of_lt hbyte] at hv
  subst hv
  exact ⟨rfl, hres _ _ _, rfl, rfl⟩

/-- C11, on an example: `cast(X:8, 32)` has the value of `X` sign-extended to 32 bits. -/
theorem update_cast_value_witness :
    example_signed_cast.value = example_resize (example_variable "X" 1000 8).value 32 true ∧
      example_signed_cast.size = 32 ∧
      example_signed_cast.lhs = example_variable "X" 1000 8 ∧
      example_signed_cast.rhs =
        (make_constant example_externals (resize example_externals 0) 32 8).getD .null :=
  update_cast_value example_externals 0 (fresh_state .cast none bit_vector.empty)
    (example_variable "X" 1000 8)
    ((make_constant example_externals (resize example_externals 0) 32 8).getD .null)
    example_signed_cast 32 (by decide) example_casts_are_binary example_resize_sets_width
    (by decide!) (by decide) (by decide!)

/-- C12, as stated, fails on a positive constant with many set bits: for
`v = 0x7FFFFFFFFFFFFFFF` the code takes the root of `1 + min(63, 63) = 64`, where
`1 + min(popcount(v), popcount(-v))` is 3; with the example root the complexity is 8,
not the root of 3. -/
theorem update_constant_complexity_positive :
    example_large_constant.complexity = example_externals.sqrt 64 ∧
      example_large_constant.value.get_signed = some (2 ^ 63 - 1) ∧
      1 + min (popcnt (2 ^ 63 - 1)) (popcnt (-(2 ^ 63 - 1))) = 3 ∧
      example_externals.sqrt 64 ≠ example_externals.sqrt 3 := by
  decide!

/-- C12, amended: for a constant leaf with sign-extended value `v`, `update` sets the
complexity to the root of `1 + min(popcount(v), popcount(|v|))`, with `|v|` the absolute
value of `v`; when `v` is not positive this is the root of
`1 + min(popcount(v), popcount(-v))`. -/
theorem update_constant_complexity (ext : externals) (fuel : Nat) (s : node_state)
    (lhs rhs e1 : expression) (v : Int) (auto_simplify : Bool)
    (hconst : s.is_constant = true) (hv : s.value.get_signed = some v)
    (h : update ext fuel (.node s lhs rhs) auto_simplify = some e1) :
    e1.complexity = ext.sqrt (1 + min (popcnt v) (popcnt |v|)) ∧
      (v ≤ 0 → e1.complexity = ext.sqrt (1 + min (popcnt v) (popcnt (-v)))) := by
  have hleaf : (!s.is_expression) = true := by
    simp only [node_state.is_constant, Bool.and_eq_true] at hconst
    exact hconst.1.1
  unfold update update_with at h
  simp only [if_pos hleaf] at h
  unfold update_leaf at h
  simp only [hconst, if_true, hv, Option.some.injEq] at h
  subst h
  refine ⟨rfl, fun hneg => ?_⟩
  simp only [expression.complexity, constant_score, abs_of_nonpos hneg]

/-- C12 amended, on an example: the constant `-1` of width 32 scores the root of 2. -/
theorem update_constant_complexity_witness :
    ((make_constant example_externals (resize example_externals 0) (2 ^ 32 - 1) 32).getD
        .null).complexity =
      example_externals.sqrt (1 + min (popcnt (-1)) (popcnt |(-1 : Int)|)) :=
  (update_constant_complexity example_externals 0
    (fresh_state .invalid none (bit_vector.constant (2 ^ 32 - 1) 32)) .null .null
    ((make_constant example_externals (resize example_externals 0) (2 ^ 32 - 1) 32).getD
      .null) (-1) false (by decide!) (by decide!) (by decide!)).1

/-- A node compared with itself is equal. -/
theorem equals_self (ext : externals) (s : node_state) (lhs rhs : expression) :
    (expression.node s lhs rhs).equals ext (.node s lhs rhs) = true := by
  have hl := reference_eq_or_equals_self ext lhs
  have hr := reference_eq_or_equals_self ext rhs
  simp only [Bool.or_eq_true] at hl hr
  unfold expression.equals
  by_cases hv : s.is_variable = true
  · simp [hv]
  · by_cases hc : s.is_constant = true
    · simp [hv, hc]
    · by_cases hun : (ext.get_op_desc s.op).operand_count = 1
      · simp [hv, hc, hun, hr]
      · simp [hv, hc, hun, hl, hr]

/-- The group of the two cast operators in `resize`. -/
theorem resize_group_of_cast (op : operator_id) :
    (op = .cast → resize_group_of op = .cast) ∧ (op = .ucast → resize_group_of op = .ucast) :=
  ⟨fun h => by rw [h]; rfl, fun h => by rw [h]; rfl⟩

/-- C14 (cast elision): for a `cast` or `ucast` node `N` that did not shrink its operand
(operand width at most the target-width constant) and a width `w` other than the width of
`N` and equal to the operand's width, `resize(N, w, s)` returns the former left child
itself: no cast wrapper remains, and the result compares equal to that child under
`equals`, hash, depth and width included. -/
theorem resize_cast_elision (ext : externals) (fuel : Nat) (N : expression) (c w : Nat)
    (signed_cast : Bool)
    (hop : N.op = .cast ∨ N.op = .ucast) (hlhs : N.lhs.is_set = true)
    (hc : N.rhs.rhs_width = some c) (hnoshrink : N.lhs.size ≤ c)
    (hw : N.size ≠ w) (hoperand : N.lhs.size = w) :
    resize ext (fuel + 1) N w signed_cast = some N.lhs ∧
      N.lhs.equals ext N.lhs = true ∧ N.lhs.size = w := by
  cases N with
  | null => simp [expression.op] at hop
  | node s lhs rhs =>
    cases lhs with
    | null => simp [expression.lhs, expression.is_set] at hlhs
    | node ls ll lr =>
      simp only [expression.op, expression.lhs, expression.rhs, expression.size,
        bit_vector.size] at hop hc hnoshrink hw hoperand
      refine ⟨?_, equals_self ext ls ll lr, hoperand⟩
      have hsz : ¬ s.value.size = w := hw
      have hnot : ¬ ls.value.size > c := by
        simp only [bit_vector.size]
        omega
      have hsame : ls.value.size = w := hoperand
      rw [resize_succ ext fuel s _ rhs w signed_cast hsz]
      rcases hop with h | h
      · simp only [(resize_group_of_cast s.op).1 h, hc, if_neg hnot, if_pos hsame,
          expression.lhs]
      · simp only [(resize_group_of_cast s.op).2 h, hc, if_neg hnot, if_pos hsame,
          expression.lhs]

/-- C14, on an example: `cast(X:8, 32)` resized to 8 bits is `X:8` again. -/
theorem resize_cast_elision_witness :
    resize example_externals 1 example_signed_cast 8 true = some example_signed_cast.lhs ∧
      example_signed_cast.lhs.equals example_externals example_signed_cast.lhs = true ∧
      example_signed_cast.lhs.size = 8 :=
  resize_cast_elision example_externals 0 example_signed_cast 32 8 true (by decide!)
    (by decide!) (by decide!) (by decide!) (by decide!) (by decide!)

/-- C15, as stated, fails on its own witness: resizing `cast(X:8, 32)` to the unsigned
width 16 does not take the shrink path; the result is an unsigned cast of width 16 whose
operand is the original signed-cast node of width 32, not a masked operand of width 8. -/
theorem resize_signed_cast_wraps_original :
    (resize example_externals 6 example_signed_cast 16 false).map
        (fun n => (n.op, n.size, decide (n.lhs = example_signed_cast), n.lhs.op, n.lhs.size)) =
      some (.ucast, 16, true, .cast, 32) := by
  decide!

/-- The node built by `__ucast` has the operator `ucast` and the given operand. -/
theorem make_ucast_shape (ext : externals)
    (resize : expression → Nat → Bool → Option expression) (e c1 : expression) (n : Nat)
    (h : make_cast ext resize false e n = some c1) : c1.op = .ucast ∧ c1.lhs = e := by
  unfold make_cast at h
  cases hc : make_constant ext resize n 8 with
  | none => simp [hc] at h
  | some width =>
    simp only [hc, Bool.false_eq_true, if_false] at h
    unfold make_binary update_with at h
    have hnot : ¬ ((!(fresh_state .ucast none bit_vector.empty).is_expression) = true) := by
      simp [fresh_state, node_state.is_expression]
    simp only [if_neg hnot] at h
    split at h
    · obtain ⟨-, -, rfl⟩ := update_unary_false ext _ e width c1 h
      exact ⟨rfl, rfl⟩
    · split at h
      · obtain ⟨value, lhs1, rhs1, -, -, -, hrec, -, rfl⟩ :=
          update_binary_false ext resize _ e width c1 h
        have hgroup : size_mismatch_group (fresh_state .ucast none bit_vector.empty).op = none :=
          rfl
        simp only [reconcile_children, hgroup, Option.some.injEq, Prod.mk.injEq] at hrec
        obtain ⟨rfl, rfl⟩ := hrec
        exact ⟨rfl, rfl⟩
      · simp at h

/-- C15, amended: a signed-cast node resized with an unsigned request to a width other
than its own takes the shrink path exactly when its operand is wider than its current
target-width constant; when the operand is not wider and its width differs from the new
width, the expression handed to the simplification gateway is an unsigned cast to the new
width wrapped around the original signed-cast node. -/
theorem resize_signed_cast_unsigned_request (ext : externals) (fuel : Nat) (N : expression)
    (c w : Nat) (signed_cast : Bool)
    (hop : N.op = .cast) (hlhs : N.lhs.is_set = true) (hc : N.rhs.rhs_width = some c)
    (hw : N.size ≠ w) (hflag : signed_cast = false ∨ w = 1) :
    (N.lhs.size > c →
      resize ext (fuel + 1) N w signed_cast =
        resize_shrunk ext (resize ext fuel) true N c N.lhs.size w) ∧
    (N.lhs.size ≤ c → N.lhs.size ≠ w →
      resize ext (fuel + 1) N w signed_cast = wrap_in_cast ext (resize ext fuel) false N w ∧
      ∀ c1, make_cast ext (resize ext fuel) false N w = some c1 →
        c1.op = .ucast ∧ c1.lhs = N) := by
  cases N with
  | null => simp [expression.op] at hop
  | node s lhs rhs =>
    cases lhs with
    | null => simp [expression.lhs, expression.is_set] at hlhs
    | node ls ll lr =>
      simp only [expression.op, expression.lhs, expression.rhs, expression.size] at hop hc hw ⊢
      have hsz : ¬ s.value.size = w := hw
      have hreq : (if w = 1 then false else signed_cast) = false := by
        rcases hflag with h | h
        · simp [h]
        · simp [h]
      rw [resize_succ ext fuel s _ rhs w signed_cast hsz]
      simp only [(resize_group_of_cast s.op).1 hop, hc, hreq]
      constructor
      · intro hgt
        have hgt2 : ls.value.size > c := hgt
        simp only [if_pos hgt2]
      · intro hle hne
        have hnot : ¬ ls.value.size > c := by
          simp only [bit_vector.size] at hle ⊢
          omega
        have hdiff : ¬ ls.value.size = w := hne
        refine ⟨?_, fun c1 h1 => make_ucast_shape ext _ _ c1 w h1⟩
        simp only [if_neg hnot, if_neg hdiff, Bool.false_eq_true, if_false]

/-- C15 amended, on an example: for `cast(X:8, 32)` and the unsigned width 16 the gateway
is handed `__ucast` of the original node. -/
theorem resize_signed_cast_unsigned_request_witness :
    resize example_externals 6 example_signed_cast 16 false =
      wrap_in_cast example_externals (resize example_externals 5) false example_signed_cast
        16 :=
  ((resize_signed_cast_unsigned_request example_externals 5 example_signed_cast 32 16 false
    (by decide!) (by decide!) (by decide!) (by decide!) (Or.inl rfl)).2
    (by decide!) (by decide!)).1

/-! ## `equals` as a relation on well-formed expressions -/

/-- One unfolding of `equals` on two nodes. -/
theorem equals_node (ext : externals) (s os : node_state) (lhs rhs olhs orhs : expression) :
    (expression.node s lhs rhs).equals ext (.node os olhs orhs) =
      if s.hash ≠ os.hash then false
      else if s.op ≠ os.op ∨ s.value.size ≠ os.value.size then false
      else if s.is_variable then os.is_variable && s.uid == os.uid
      else if s.is_constant then os.is_constant && s.value == os.value
      else if (ext.get_op_desc s.op).operand_count = 1 then
        reference_eq ext rhs orhs || rhs.equals ext orhs
      else if (reference_eq ext lhs olhs || lhs.equals ext olhs) &&
          (reference_eq ext rhs orhs || rhs.equals ext orhs) then true
      else
        (ext.get_op_desc s.op).is_commutative &&
        (reference_eq ext lhs orhs || lhs.equals ext orhs) &&
        (reference_eq ext rhs olhs || rhs.equals ext olhs) := rfl

/-- The test applied to a pair of child references: identical or deeply equal. -/
theorem equals_node_iff (ext : externals) (s os : node_state)
    (lhs rhs olhs orhs : expression) :
    (expression.node s lhs rhs).equals ext (.node os olhs orhs) = true ↔
      s.hash = os.hash ∧ s.op = os.op ∧ s.value.size = os.value.size ∧
      (if s.is_variable = true then os.is_variable = true ∧ s.uid = os.uid
       else if s.is_constant = true then os.is_constant = true ∧ s.value = os.value
       else if (ext.get_op_desc s.op).operand_count = 1 then
        (reference_eq ext rhs orhs || rhs.equals ext orhs) = true
       else
        ((reference_eq ext lhs olhs || lhs.equals ext olhs) = true ∧
          (reference_eq ext rhs orhs || rhs.equals ext orhs) = true) ∨
        ((ext.get_op_desc s.op).is_commutative = true ∧
          (reference_eq ext lhs orhs || lhs.equals ext orhs) = true ∧
          (reference_eq ext rhs olhs || rhs.equals ext olhs) = true)) := by
  rw [equals_node]
  by_cases hh : s.hash = os.hash
  · by_cases hop : s.op = os.op
    · by_cases hsz : s.value.size = os.value.size
      · by_cases hv : s.is_variable = true
        · simp [hh, hop, hsz, hv]
        · by_cases hc : s.is_constant = true
          · simp [hh, hop, hsz, hv, hc]
          · by_cases hun : (ext.get_op_desc s.op).operand_count = 1
            · simp only [hop] at hun
              simp [hh, hop, hsz, hv, hc, hun]
            · simp only [hop] at hun
              simp only [hh, hop, hsz, hv, hc, hun, ne_eq, not_true_eq_false, or_self,
                if_false, true_and, Bool.false_eq_true]
              by_cases h1 : ((reference_eq ext lhs olhs || lhs.equals ext olhs) &&
                  (reference_eq ext rhs orhs || rhs.equals ext orhs)) = true
              · simp only [h1, if_true, true_iff]
                left
                simpa only [Bool.and_eq_true] using h1
              · simp only [h1, if_false, Bool.false_eq_true]
                simp only [Bool.and_eq_true] at h1 ⊢
                constructor
                · intro h
                  exact Or.inr ⟨h.1.1, h.1.2, h.2⟩
                · rintro (h | h)
                  · exact absurd h h1
                  · exact ⟨⟨h.1, h.2.1⟩, h.2.2⟩
      · simp [hh, hop, hsz]
    · simp [hh, hop]
  · simp [hh]

/-- Comparison of references does not depend on the order. -/
theorem reference_eq_symm (ext : externals) (hrefs : references_sound ext)
    (a b : expression) : reference_eq ext a b = reference_eq ext b a := by
  cases a <;> cases b <;> simp [reference_eq, hrefs.2]

/-- References that compare identical hold the same expression. -/
theorem reference_eq_sound (ext : externals) (hrefs : references_sound ext)
    (a b : expression) (h : reference_eq ext a b = true) : a = b := by
  cases a with
  | null =>
    cases b with
    | null => rfl
    | node _ _ _ => simp [reference_eq] at h
  | node s l r =>
    cases b with
    | null => simp [reference_eq] at h
    | node os ol or => exact hrefs.1 _ _ (by simpa [reference_eq] using h)

/-- The variants of a well-formed node exclude one another. -/
theorem well_formed_kind (ext : externals) (s : node_state) (lhs rhs : expression)
    (h : (expression.node s lhs rhs).well_formed ext = true) :
    (s.is_expression = false ∧
        ((s.is_variable = true ∧ s.is_constant = false) ∨
          (s.is_variable = false ∧ s.is_constant = true))) ∨
    (s.is_expression = true ∧ s.is_variable = false ∧ s.is_constant = false ∧
      (((ext.get_op_desc s.op).operand_count = 1 ∧ rhs.well_formed ext = true) ∨
        ((ext.get_op_desc s.op).operand_count ≠ 1 ∧ lhs.well_formed ext = true ∧
          rhs.well_formed ext = true))) := by
  unfold expression.well_formed at h
  cases he : s.is_expression with
  | false =>
    left
    refine ⟨rfl, ?_⟩
    simp only [he, Bool.not_false, if_true, Bool.and_eq_true, Bool.or_eq_true] at h
    cases hv : s.is_variable with
    | true => left; exact ⟨rfl, by simp [node_state.is_constant, hv]⟩
    | false =>
      right
      refine ⟨rfl, ?_⟩
      rcases h.1.1 with h1 | h1
      · rw [hv] at h1; exact absurd h1 (by simp)
      · exact h1
  | true =>
    right
    have hc : s.is_constant = false := by simp [node_state.is_constant, he]
    simp only [he, Bool.not_true, Bool.false_eq_true, if_false] at h
    by_cases hun : (ext.get_op_desc s.op).operand_count = 1
    · simp only [if_pos hun, Bool.and_eq_true, Bool.not_eq_true'] at h
      exact ⟨rfl, h.1.1, hc, Or.inl ⟨hun, h.2⟩⟩
    · simp only [if_neg hun] at h
      split at h
      · simp only [Bool.and_eq_true, Bool.not_eq_true'] at h
        exact ⟨rfl, h.1.1, hc, Or.inr ⟨hun, h.1.2, h.2⟩⟩
      · simp at h

/-- The test on a pair of child references is symmetric once `equals` is on that pair. -/
theorem child_test_symm (ext : externals) (hrefs : references_sound ext) (a b : expression)
    (h : a.equals ext b = b.equals ext a) :
    (reference_eq ext a b || a.equals ext b) = (reference_eq ext b a || b.equals ext a) := by
  rw [reference_eq_symm ext hrefs a b, h]

/-- Symmetry of `equals` on well-formed expressions. -/
theorem equals_symm_aux (ext : externals) (hrefs : references_sound ext) :
    ∀ A B : expression, A.well_formed ext = true → B.well_formed ext = true →
      A.equals ext B = B.equals ext A := by
  intro A
  induction A with
  | null =>
    intro B hA
    simp [expression.well_formed] at hA
  | node s lhs rhs ihl ihr =>
    intro B hA hB
    cases B with
    | null => simp [expression.well_formed] at hB
    | node os olhs orhs =>
      rw [Bool.eq_iff_iff, equals_node_iff, equals_node_iff]
      have kA := well_formed_kind ext s lhs rhs hA
      have kB := well_formed_kind ext os olhs orhs hB
      by_cases hop : s.op = os.op
      · have hexp : os.is_expression = s.is_expression := by
          simp [node_state.is_expression, hop]
        rcases kA with ⟨heA, kA⟩ | ⟨heA, hvA, hcA, kA⟩
        · rcases kB with ⟨-, kB⟩ | ⟨heB, -⟩
          · rcases kA with ⟨hvA, hcA⟩ | ⟨hvA, hcA⟩ <;>
              rcases kB with ⟨hvB, hcB⟩ | ⟨hvB, hcB⟩ <;>
              constructor <;> rintro ⟨h1, h2, h3, h4⟩ <;>
              refine ⟨h1.symm, h2.symm, h3.symm, ?_⟩ <;>
              simp [hvA, hcA, hvB, hcB] at h4 ⊢ <;>
              exact h4.symm
          · rw [heA, heB] at hexp
            simp at hexp
        · rcases kB with ⟨heB, -⟩ | ⟨-, hvB, hcB, kB⟩
          · rw [heA, heB] at hexp
            simp at hexp
          · simp only [hvA, hcA, hvB, hcB, Bool.false_eq_true, if_false]
            rcases kA with ⟨hun, wr⟩ | ⟨hun, wl, wr⟩
            · have hunB : (ext.get_op_desc os.op).operand_count = 1 := hop ▸ hun
              rcases kB with ⟨-, wor⟩ | ⟨hnB, -⟩
              · rw [if_pos hun, if_pos hunB,
                  child_test_symm ext hrefs rhs orhs (ihr orhs wr wor)]
                constructor <;> rintro ⟨h1, h2, h3, h4⟩ <;>
                  exact ⟨h1.symm, h2.symm, h3.symm, h4⟩
              · exact absurd hunB hnB
            · have hunB : (ext.get_op_desc os.op).operand_count ≠ 1 := hop ▸ hun
              rcases kB with ⟨h1B, -⟩ | ⟨-, wol, wor⟩
              · exact absurd h1B hunB
              · rw [if_neg hun, if_neg hunB,
                  child_test_symm ext hrefs lhs olhs (ihl olhs wl wol),
                  child_test_symm ext hrefs rhs orhs (ihr orhs wr wor),
                  child_test_symm ext hrefs lhs orhs (ihl orhs wl wor),
                  child_test_symm ext hrefs rhs olhs (ihr olhs wr wol), hop]
                constructor <;> rintro ⟨h1, h2, h3, h4⟩ <;>
                  refine ⟨h1.symm, h2.symm, h3.symm, ?_⟩ <;>
                  rcases h4 with h4 | h4
                · exact Or.inl h4
                · exact Or.inr ⟨h4.1, h4.2.2, h4.2.1⟩
                · exact Or.inl h4
                · exact Or.inr ⟨h4.1, h4.2.2, h4.2.1⟩
      · constructor <;> rintro ⟨-, h, -⟩
        · exact absurd h hop
        · exact absurd h.symm hop

/-- C18 (symmetry of `equals`): for well-formed expressions `A` and `B`,
`A.equals(B) == B.equals(A)`, whether the match goes through the same-order comparison,
the swapped retry of a commutative operator or the identity of shared references;
identity of references is taken to be symmetric and to imply the same node. -/
theorem equals_symmetric (ext : externals) (hrefs : references_sound ext)
    (A B : expression) (hA : A.well_formed ext = true) (hB : B.well_formed ext = true) :
    A.equals ext B = B.equals ext A :=
  equals_symm_aux ext hrefs A B hA hB

/-- No two references of the example collaborators are identical, which is sound. -/
theorem example_references_sound : references_sound example_externals :=
  ⟨fun _ _ h => by simp [example_externals] at h, fun _ _ => rfl⟩

/-- C18, on an example: `add(X, Y)` and `add(Y, X)` compare equal in both directions. -/
theorem equals_symmetric_witness :
    (example_binary example_x .add example_y).equals example_externals
        (example_binary example_y .add example_x) =
      (example_binary example_y .add example_x).equals example_externals
        (example_binary example_x .add example_y) :=
  equals_symmetric example_externals example_references_sound
    (example_binary example_x .add example_y) (example_binary example_y .add example_x)
    (by decide!) (by decide!)

/-- The test on child references composes once `equals` composes from the first child. -/
theorem child_test_trans (ext : externals) (hrefs : references_sound ext)
    (a b c : expression)
    (ih : a.equals ext b = true → b.equals ext c = true → a.equals ext c = true)
    (hab : (reference_eq ext a b || a.equals ext b) = true)
    (hbc : (reference_eq ext b c || b.equals ext c) = true) :
    (reference_eq ext a c || a.equals ext c) = true := by
  simp only [Bool.or_eq_true] at hab hbc ⊢
  rcases hab with hab | hab
  · have := reference_eq_sound ext hrefs a b hab
    subst this
    exact hbc
  · rcases hbc with hbc | hbc
    · have := reference_eq_sound ext hrefs b c hbc
      subst this
      exact Or.inr hab
    · exact Or.inr (ih hab hbc)

/-- Transitivity of `equals` on well-formed expressions. -/
theorem equals_trans_aux (ext : externals) (hrefs : references_sound ext) :
    ∀ A B C : expression, A.well_formed ext = true → B.well_formed ext = true →
      C.well_formed ext = true → A.equals ext B = true → B.equals ext C = true →
      A.equals ext C = true := by
  intro A
  induction A with
  | null =>
    intro B C hA
    simp [expression.well_formed] at hA
  | node s lhs rhs ihl ihr =>
    intro B C hA hB hC hAB hBC
    cases B with
    | null => simp [expression.well_formed] at hB
    | node os olhs orhs =>
      cases C with
      | null => simp [expression.well_formed] at hC
      | node cs clhs crhs =>
        rw [equals_node_iff] at hAB hBC ⊢
        obtain ⟨hh1, hop1, hsz1, hAB⟩ := hAB
        obtain ⟨hh2, hop2, hsz2, hBC⟩ := hBC
        refine ⟨hh1.trans hh2, hop1.trans hop2, hsz1.trans hsz2, ?_⟩
        have kA := well_formed_kind ext s lhs rhs hA
        have kB := well_formed_kind ext os olhs orhs hB
        have kC := well_formed_kind ext cs clhs crhs hC
        have hexpB : os.is_expression = s.is_expression := by
          simp [node_state.is_expression, hop1]
        have hexpC : cs.is_expression = s.is_expression := by
          simp [node_state.is_expression, hop1, hop2]
        rcases kA with ⟨heA, kA⟩ | ⟨heA, hvA, hcA, kA⟩
        · rcases kA with ⟨hvA, hcA⟩ | ⟨hvA, hcA⟩
          · simp only [hvA, if_true] at hAB ⊢
            simp only [hAB.1, if_true] at hBC
            exact ⟨hBC.1, hAB.2.trans hBC.2⟩
          · simp only [hvA, hcA, Bool.false_eq_true, if_false, if_true] at hAB ⊢
            have hvB : os.is_variable = false := by
              have := hAB.1
              simp only [node_state.is_constant, Bool.and_eq_true, Bool.not_eq_true'] at this
              exact this.1.2
            simp only [hvB, hAB.1, Bool.false_eq_true, if_false, if_true] at hBC
            exact ⟨hBC.1, hAB.2.trans hBC.2⟩
        · rw [heA] at hexpB hexpC
          rcases kB with ⟨heB, -⟩ | ⟨-, hvB, hcB, kB⟩
          · rw [heB] at hexpB
            simp at hexpB
          · rcases kC with ⟨heC, -⟩ | ⟨-, hvC, hcC, kC⟩
            · rw [heC] at hexpC
              simp at hexpC
            · simp only [hvA, hcA, hvB, hcB, Bool.false_eq_true, if_false] at hAB hBC ⊢
              rw [← hop1] at hBC kB
              rw [← hop2, ← hop1] at kC
              rcases kA with ⟨hun, wr⟩ | ⟨hun, wl, wr⟩
              · rcases kB with ⟨-, wor⟩ | ⟨hnB, -⟩
                · rcases kC with ⟨-, wcr⟩ | ⟨hnC, -⟩
                  · rw [if_pos hun] at hAB hBC ⊢
                    exact child_test_trans ext hrefs rhs orhs crhs
                      (ihr orhs crhs wr wor wcr) hAB hBC
                  · exact absurd hun hnC
                · exact absurd hun hnB
              · rcases kB with ⟨h1B, -⟩ | ⟨-, wol, wor⟩
                · exact absurd h1B hun
                · rcases kC with ⟨h1C, -⟩ | ⟨-, wcl, wcr⟩
                  · exact absurd h1C hun
                  · rw [if_neg hun] at hAB hBC ⊢
                    rcases hAB with ⟨hl, hr⟩ | ⟨hcomm, hl, hr⟩ <;>
                      rcases hBC with ⟨hl2, hr2⟩ | ⟨hcomm2, hl2, hr2⟩
                    · exact Or.inl
                        ⟨child_test_trans ext hrefs lhs olhs clhs
                            (ihl olhs clhs wl wol wcl) hl hl2,
                          child_test_trans ext hrefs rhs orhs crhs
                            (ihr orhs crhs wr wor wcr) hr hr2⟩
                    · exact Or.inr
                        ⟨hcomm2,
                          child_test_trans ext hrefs lhs olhs crhs
                            (ihl olhs crhs wl wol wcr) hl hl2,
                          child_test_trans ext hrefs rhs orhs clhs
                            (ihr orhs clhs wr wor wcl) hr hr2⟩
                    · exact Or.inr
                        ⟨hcomm,
                          child_test_trans ext hrefs lhs orhs crhs
                            (ihl orhs crhs wl wor wcr) hl hr2,
                          child_test_trans ext hrefs rhs olhs clhs
                            (ihr olhs clhs wr wol wcl) hr hl2⟩
                    · exact Or.inl
                        ⟨child_test_trans ext hrefs lhs orhs clhs
                            (ihl orhs clhs wl wor wcl) hl hr2,
                          child_test_trans ext hrefs rhs olhs crhs
                            (ihr olhs crhs wr wol wcr) hr hl2⟩

/-- C19 (transitivity of `equals`): for well-formed expressions `A`, `B` and `C`, if
`A.equals(B)` and `B.equals(C)` then `A.equals(C)`, whichever of the same-order and the
swapped-order comparison each match uses at each commutative node; identity of references
is taken to be symmetric and to imply the same node. -/
theorem equals_transitive (ext : externals) (hrefs : references_sound ext)
    (A B C : expression) (hA : A.well_formed ext = true) (hB : B.well_formed ext = true)
    (hC : C.well_formed ext = true) (hAB : A.equals ext B = true)
    (hBC : B.equals ext C = true) : A.equals ext C = true :=
  equals_trans_aux ext hrefs A B C hA hB hC hAB hBC

/-- C19, on an example: from `add(X, multiply(X, Y))` over `add(multiply(Y, X), X)` to
`add(X, multiply(Y, X))`, the first step swapping both nodes and the second the outer one. -/
theorem equals_transitive_witness :
    (example_binary example_x .add
        (example_binary example_x .multiply example_y)).equals example_externals
      (example_binary example_x .add (example_binary example_y .multiply example_x)) = true :=
  equals_transitive example_externals example_references_sound
    (example_binary example_x .add (example_binary example_x .multiply example_y))
    (example_binary (example_binary example_y .multiply example_x) .add example_x)
    (example_binary example_x .add (example_binary example_y .multiply example_x))
    (by decide!) (by decide!) (by decide!) (by decide!) (by decide!)

end vtil
